import Mathlib

/-!
Verification of the FbTk signal/slot core (`src/FbTk/Signal.hh`).

The embedding models `SigImpl::SignalHolder` and `FbTk::SignalTracker`.
A `std::list<SlotPtr>` node is represented by a pair `(id, content)` where
`id` is a stable node identity (node identities are handed out by a counter
and never reused, mirroring the stability of `std::list` iterators) and
`content : Option Callback` is the stored `SlotPtr`, `none` being an empty
(tombstoned) pointer.  Because nodes are only ever inserted at the tail,
the list is always sorted by identity, and the `std::list` iterator heading
through the list corresponds to "the first node whose identity is at least
`pos`".  Callbacks are drawn from a small action language sufficient to
express everything a slot can do to its own holder while being invoked:
disconnect a slot, clear the holder, or connect a new callback.
-/

namespace FluxSignal

set_option maxRecDepth 4000

/-- Action a callback may perform on its signal holder while being invoked.
`conn` carries the new callback to connect (its tag and its own actions). -/
inductive Act : Type where
  | disc (id : Nat) : Act
  | clearAll : Act
  | conn (tag : Nat) (acts : List Act) : Act

/-- A callback: an observable tag together with the actions it performs when
invoked.  The tag models the identity of the user-supplied functor. -/
abbrev Callback := Nat × List Act

/-- Shallow embedding of `SigImpl::SignalHolder`.  `slots` models
`std::list<SlotPtr> m_slots`; `trackers` models `std::set<Tracker*> m_trackers`
(tracker identities, kept sorted and duplicate-free like a `std::set`);
`emitting` models `unsigned m_emitting`; `nextId` is the node-identity
counter used to model iterator stability. -/
structure SignalHolder where
  slots : List (Nat × Option Callback)
  nextId : Nat
  trackers : List Nat
  emitting : Nat

/-- Modulus of the C++ `unsigned` counter `m_emitting`. -/
def UINT_MOD : Nat := 4294967296

/-- `SignalHolder::connect`: `return m_slots.insert(m_slots.end(), slot);`
— append a node at the tail and return its (stable) identity. -/
def connect (s : SignalHolder) (cb : Callback) : SignalHolder × Nat :=
  ({ s with slots := s.slots ++ [(s.nextId, some cb)], nextId := s.nextId + 1 },
   s.nextId)

/-- `SignalHolder::disconnect(SlotID)`: while emitting, overwrite the node
with an empty `SlotPtr` (`*slotIt = SlotPtr();`); otherwise erase the node
(`m_slots.erase(slotIt);`). -/
def disconnect (s : SignalHolder) (id : Nat) : SignalHolder :=
  if s.emitting ≠ 0 then
    { s with slots := s.slots.map (fun e => if e.1 = id then (e.1, none) else e) }
  else
    { s with slots := s.slots.eraseP (fun e => e.1 == id) }

/-- `SignalHolder::clear`: while emitting, `std::fill(begin, end, SlotPtr())`;
otherwise `m_slots.clear()`. -/
def clear (s : SignalHolder) : SignalHolder :=
  if s.emitting ≠ 0 then
    { s with slots := s.slots.map (fun e => (e.1, (none : Option Callback))) }
  else
    { s with slots := [] }

/-- Ordered duplicate-free insertion, modelling `std::set::insert`. -/
def setInsert (x : Nat) : List Nat → List Nat
  | [] => [x]
  | y :: ys =>
    if x < y then x :: y :: ys
    else if x = y then y :: ys
    else y :: setInsert x ys

/-- `SignalHolder::connectTracker`: `m_trackers.insert(&tracker);`. -/
def connectTracker (s : SignalHolder) (tid : Nat) : SignalHolder :=
  { s with trackers := setInsert tid s.trackers }

/-- `SignalHolder::disconnectTracker`: `m_trackers.erase(&tracker);`. -/
def disconnectTracker (s : SignalHolder) (tid : Nat) : SignalHolder :=
  { s with trackers := s.trackers.eraseP (fun y => y == tid) }

/-- `SignalHolder::begin_emitting`: `++m_emitting;` (unsigned arithmetic). -/
def begin_emitting (s : SignalHolder) : SignalHolder :=
  { s with emitting := (s.emitting + 1) % UINT_MOD }

/-- `SignalHolder::end_emitting`: `if (--m_emitting == 0)` erase all empty
`SlotPtr` entries (`m_slots.erase(std::remove(..., SlotPtr()), end)`). -/
def end_emitting (s : SignalHolder) : SignalHolder :=
  if (s.emitting + (UINT_MOD - 1)) % UINT_MOD = 0 then
    { s with emitting := 0, slots := s.slots.filter (fun x => x.2.isSome) }
  else
    { s with emitting := (s.emitting + (UINT_MOD - 1)) % UINT_MOD }

/-- Effect of one callback action on the holder, through the holder's own
public operations (this is all a functor can do to the holder). -/
def runAct (s : SignalHolder) : Act → SignalHolder
  | .disc id => disconnect s id
  | .clearAll => clear s
  | .conn tag acts => (connect s (tag, acts)).1

/-- Effect of one callback invocation: run its actions in order. -/
def runActs (acts : List Act) (s : SignalHolder) : SignalHolder :=
  acts.foldl runAct s

/-- Record of one slot invocation during an emission: which node was invoked,
the callback's tag, and the three emitted arguments. -/
structure Invocation where
  slotId : Nat
  tag : Nat
  arg1 : Nat
  arg2 : Nat
  arg3 : Nat
deriving DecidableEq, Repr

/-- The iterator loop of `SignalTemplate::emit_`:
`for (Iterator it = begin(); it != end(); ++it) if (*it) (**it)(args);`.
The iterator is represented by `pos`: it heads to the first node whose
identity is at least `pos` (the list is sorted by identity and, while
emitting, nodes are never erased, so this is exactly the `std::list`
successor).  Returns the final holder, the invocation trace, and the list
of node identities the iterator stopped at.  Fuel bounds the recursion;
`none` means the fuel ran out before the iterator reached `end()`. -/
def emitLoop (a1 a2 a3 : Nat) :
    Nat → SignalHolder → Nat → Option (SignalHolder × List Invocation × List Nat)
  | 0, _, _ => none
  | fuel + 1, s, pos =>
    match s.slots.find? (fun e => decide (pos ≤ e.1)) with
    | none => some (s, [], [])
    | some (id, none) =>
      match emitLoop a1 a2 a3 fuel s (id + 1) with
      | none => none
      | some (s', tr, vis) => some (s', tr, id :: vis)
    | some (id, some cb) =>
      match emitLoop a1 a2 a3 fuel (runActs cb.2 s) (id + 1) with
      | none => none
      | some (s', tr, vis) => some (s', ⟨id, cb.1, a1, a2, a3⟩ :: tr, id :: vis)

/-- `SignalTemplate::emit_`: `begin_emitting(); for (...) ...; end_emitting();`. -/
def emit_ (a1 a2 a3 fuel : Nat) (s : SignalHolder) :
    Option (SignalHolder × List Invocation × List Nat) :=
  match emitLoop a1 a2 a3 fuel (begin_emitting s) 0 with
  | none => none
  | some (s', tr, vis) => some (end_emitting s', tr, vis)

/-- Shallow embedding of `FbTk::SignalTracker`: `m_connections`, the
`std::map<SignalHolder*, SlotID>` from holder identity to connection
identity, kept sorted by key like a `std::map`. -/
structure SignalTracker where
  connections : List (Nat × Nat)

/-- `std::map::insert`: ordered insertion that fails (map unchanged, second
component `false`) when the key is already present. -/
def mapInsert (k v : Nat) : List (Nat × Nat) → List (Nat × Nat) × Bool
  | [] => ([(k, v)], true)
  | (k', v') :: rest =>
    if k < k' then ((k, v) :: (k', v') :: rest, true)
    else if k = k' then ((k', v') :: rest, false)
    else
      let r := mapInsert k v rest
      ((k', v') :: r.1, r.2)

/-- `m_connections.erase(...)` keyed by holder identity. -/
def trackerErase (t : SignalTracker) (hid : Nat) : SignalTracker :=
  { connections := t.connections.eraseP (fun e => e.1 == hid) }

/-- The collection of live signal holders, keyed by holder identity. -/
abbrev HolderMap := List (Nat × SignalHolder)

/-- Apply `f` to the holder with identity `hid` (no-op on other entries). -/
def updateHolder (hs : HolderMap) (hid : Nat) (f : SignalHolder → SignalHolder) :
    HolderMap :=
  hs.map (fun e => if e.1 = hid then (e.1, f e.2) else e)

/-- `SignalTracker::join`: connect first, then try to record the pair in the
map; on failure disconnect the fresh connection again; always register as a
tracker on the signal; return (an identification of) the map entry. -/
def join (tid : Nat) (t : SignalTracker) (hid : Nat) (h : SignalHolder)
    (cb : Callback) : SignalTracker × SignalHolder × (Nat × Nat) :=
  let c := connect h cb
  let ins := mapInsert hid c.2 t.connections
  let h2 := if ins.2 then c.1 else disconnect c.1 c.2
  let h3 := connectTracker h2 tid
  ({ connections := ins.1 }, h3,
   (hid, if ins.2 then c.2 else (t.connections.lookup hid).getD c.2))

/-- `SignalTracker::leave(TrackID, bool)`: copy the `(signal, connection)`
pair out of the map, erase the map entry, disconnect through the copied
pair, and optionally unregister from the signal's tracker set.  The `id`
argument is the key of the map entry (a valid `TrackID` always denotes an
existing entry; on a missing key this is a no-op). -/
def leave (tid : Nat) (t : SignalTracker) (hs : HolderMap) (hid : Nat)
    (withTracker : Bool) : SignalTracker × HolderMap :=
  match t.connections.lookup hid with
  | none => (t, hs)
  | some connId =>
    let hs' := updateHolder hs hid (fun h => disconnect h connId)
    let hs'' := if withTracker then
        updateHolder hs' hid (fun h => disconnectTracker h tid)
      else hs'
    (trackerErase t hid, hs'')

/-- Loop body of `SignalTracker::leaveAll`: while the map is nonempty, leave
the first entry (with unwatch).  Each successful `leave` removes exactly the
first entry, so `t.connections.length` steps of fuel always suffice. -/
def leaveAllAux (tid : Nat) :
    Nat → SignalTracker → HolderMap → SignalTracker × HolderMap
  | 0, t, hs => (t, hs)
  | fuel + 1, t, hs =>
    match t.connections with
    | [] => (t, hs)
    | (hid, _) :: _ =>
      let r := leave tid t hs hid true
      leaveAllAux tid fuel r.1 r.2

/-- `SignalTracker::leaveAll`. -/
def leaveAll (tid : Nat) (t : SignalTracker) (hs : HolderMap) :
    SignalTracker × HolderMap :=
  leaveAllAux tid t.connections.length t hs

/-- `SignalTracker::~SignalTracker` is exactly `leaveAll()`. -/
def destroyTracker (tid : Nat) (t : SignalTracker) (hs : HolderMap) :
    SignalTracker × HolderMap :=
  leaveAll tid t hs

/-- `SignalHolder::~SignalHolder` together with the watching trackers'
`SignalTracker::disconnect(SignalHolder&)` overrides: every tracker in the
dying holder's tracker set erases its map entry for this holder
(`m_connections.erase(&signal);`), and the holder disappears.  The dying
holder's own slot list is not touched. -/
def destroyHolder (hid : Nat) (hs : HolderMap) (ts : List (Nat × SignalTracker)) :
    HolderMap × List (Nat × SignalTracker) :=
  match hs.lookup hid with
  | none => (hs, ts)
  | some h =>
    let ts' := ts.map (fun e =>
      if h.trackers.contains e.1 then (e.1, trackerErase e.2 hid) else e)
    (hs.eraseP (fun e => e.1 == hid), ts')

/-- Well-formedness of a holder state: node identities strictly increase
along the list (nodes are only appended, with a fresh identity each time)
and are all below the identity counter. -/
def WF (s : SignalHolder) : Prop :=
  (s.slots.map Prod.fst).Chain' (· < ·) ∧ ∀ e ∈ s.slots, e.1 < s.nextId

/-- A holder all of whose stored callbacks perform no actions. -/
def isPure (s : SignalHolder) : Bool :=
  s.slots.all (fun e =>
    match e.2 with
    | none => true
    | some cb => cb.2.isEmpty)

/-- How one slot entry may evolve during an emission: the node identity is
unchanged and the content is either unchanged or tombstoned. -/
def entryEvolve (e e' : Nat × Option Callback) : Prop :=
  e'.1 = e.1 ∧ (e'.2 = e.2 ∨ e'.2 = none)

/-- How a holder may evolve during an emission: depth and tracker set are
unchanged, the identity counter only grows, no node is erased — existing
nodes evolve entrywise (tombstoning at most) and any new nodes, appended at
the tail, carry fresh identities. -/
def holderEvolve (s s' : SignalHolder) : Prop :=
  s'.emitting = s.emitting ∧ s'.trackers = s.trackers ∧ s.nextId ≤ s'.nextId ∧
  ∃ mid ext, s'.slots = mid ++ ext ∧ List.Forall₂ entryEvolve s.slots mid ∧
    ∀ e ∈ ext, s.nextId ≤ e.1

/-- Boolean strict-ascending check on a key list (used to evaluate
well-formedness on concrete states). -/
def chainLt : List Nat → Bool
  | [] => true
  | [_] => true
  | x :: y :: rest => decide (x < y) && chainLt (y :: rest)

/-- Boolean check of `WF` on concrete states. -/
def WFb (s : SignalHolder) : Bool :=
  chainLt (s.slots.map Prod.fst) && s.slots.all (fun e => decide (e.1 < s.nextId))

/-! ### Concrete states used by the witnesses -/

/-- Two action-free callbacks, at rest. -/
def exPure : SignalHolder :=
  { slots := [(0, some (5, [])), (1, some (6, []))], nextId := 2,
    trackers := [], emitting := 0 }

/-- Two action-free callbacks, mid-emission. -/
def exTomb : SignalHolder :=
  { slots := [(0, some (5, [])), (1, some (6, []))], nextId := 2,
    trackers := [], emitting := 1 }

/-- One action-free callback, mid-emission. -/
def exEmit1 : SignalHolder :=
  { slots := [(0, some (1, []))], nextId := 1, trackers := [], emitting := 1 }

/-- A live node and a tombstone, two emissions deep. -/
def exNested : SignalHolder :=
  { slots := [(0, some (1, [])), (1, none)], nextId := 2, trackers := [],
    emitting := 2 }

/-- The specification example: callbacks A, B, C in connection order; B
disconnects itself and C while being invoked. -/
def exABC : SignalHolder :=
  { slots := [(0, some (1, [])),
              (1, some (2, [Act.disc 1, Act.disc 2])),
              (2, some (3, []))],
    nextId := 3, trackers := [], emitting := 0 }

/-- The state `exABC` reaches after one complete emission. -/
def exABCres : SignalHolder :=
  { slots := [(0, some (1, []))], nextId := 3, trackers := [], emitting := 0 }

/-- A callback that connects a new callback (tag 9) while being invoked;
depth already 1, as seen from inside `emit_`. -/
def exConn : SignalHolder :=
  { slots := [(0, some (1, [Act.conn 9 []]))], nextId := 1, trackers := [],
    emitting := 1 }

/-- The loop-final state of an emission on `exConn`. -/
def exConnRes : SignalHolder :=
  { slots := [(0, some (1, [Act.conn 9 []])), (1, some (9, []))], nextId := 2,
    trackers := [], emitting := 1 }

/-- A holder with one connection, watched by tracker 0. -/
def exHA : SignalHolder :=
  { slots := [(0, some (1, []))], nextId := 1, trackers := [0], emitting := 0 }

/-- A holder with two connections, watched by tracker 0. -/
def exHB : SignalHolder :=
  { slots := [(0, some (2, [])), (1, some (3, []))], nextId := 2,
    trackers := [0], emitting := 0 }

/-- A tracker joined to holders 0 and 1. -/
def exT8 : SignalTracker := { connections := [(0, 0), (1, 1)] }

/-- The holder table for the tracker examples. -/
def exHS8 : HolderMap := [(0, exHA), (1, exHB)]

/-! ### Basic effects of the holder operations -/

theorem chainLt_sound : ∀ l : List Nat, chainLt l = true → l.Chain' (· < ·)
  | [] => fun _ => List.chain'_nil
  | [x] => fun _ => List.chain'_singleton x
  | x :: y :: rest => fun h => by
    have h' : (decide (x < y) && chainLt (y :: rest)) = true := h
    rw [Bool.and_eq_true] at h'
    rcases h' with ⟨h1, h2⟩
    exact List.chain'_cons.2 ⟨of_decide_eq_true h1, chainLt_sound (y :: rest) h2⟩

theorem WFb_sound {s : SignalHolder} (h : WFb s = true) : WF s := by
  have h' : (chainLt (s.slots.map Prod.fst) &&
      s.slots.all (fun e => decide (e.1 < s.nextId))) = true := h
  rw [Bool.and_eq_true] at h'
  rcases h' with ⟨h1, h2⟩
  refine ⟨chainLt_sound _ h1, ?_⟩
  intro e he
  exact of_decide_eq_true (List.all_eq_true.1 h2 e he)


theorem disconnect_emitting (s : SignalHolder) (id : Nat) :
    (disconnect s id).emitting = s.emitting := by
  unfold disconnect; split <;> rfl

theorem clear_emitting (s : SignalHolder) : (clear s).emitting = s.emitting := by
  unfold clear; split <;> rfl

theorem runAct_emitting (s : SignalHolder) (a : Act) :
    (runAct s a).emitting = s.emitting := by
  cases a with
  | disc id => exact disconnect_emitting s id
  | clearAll => exact clear_emitting s
  | conn tag acts => rfl

theorem runActs_emitting (acts : List Act) (s : SignalHolder) :
    (runActs acts s).emitting = s.emitting := by
  induction acts generalizing s with
  | nil => rfl
  | cons a rest ih =>
    show (runActs rest (runAct s a)).emitting = s.emitting
    rw [ih, runAct_emitting]

theorem disconnect_trackers (s : SignalHolder) (id : Nat) :
    (disconnect s id).trackers = s.trackers := by
  unfold disconnect; split <;> rfl

theorem clear_trackers (s : SignalHolder) : (clear s).trackers = s.trackers := by
  unfold clear; split <;> rfl

theorem disconnect_nextId (s : SignalHolder) (id : Nat) :
    (disconnect s id).nextId = s.nextId := by
  unfold disconnect; split <;> rfl

theorem clear_nextId (s : SignalHolder) : (clear s).nextId = s.nextId := by
  unfold clear; split <;> rfl

/-! ### Evolution of a holder while an emission is in progress -/

theorem entryEvolve_refl (e : Nat × Option Callback) : entryEvolve e e :=
  ⟨rfl, Or.inl rfl⟩

theorem entryEvolve_trans {e₁ e₂ e₃ : Nat × Option Callback}
    (h₁ : entryEvolve e₁ e₂) (h₂ : entryEvolve e₂ e₃) : entryEvolve e₁ e₃ := by
  refine ⟨h₂.1.trans h₁.1, ?_⟩
  rcases h₂.2 with h | h
  · rw [h]; exact h₁.2
  · exact Or.inr h

theorem forall₂_entryEvolve_refl (l : List (Nat × Option Callback)) :
    List.Forall₂ entryEvolve l l :=
  List.forall₂_same.2 fun e _ => entryEvolve_refl e

/-- Split a `Forall₂` whose left side is an append. -/
theorem forall₂_append_left_split {R : α → β → Prop} :
    ∀ {l₁ l₂ : List α} {m : List β}, List.Forall₂ R (l₁ ++ l₂) m →
      ∃ m₁ m₂, m = m₁ ++ m₂ ∧ List.Forall₂ R l₁ m₁ ∧ List.Forall₂ R l₂ m₂ := by
  intro l₁
  induction l₁ with
  | nil => intro l₂ m h; exact ⟨[], m, rfl, List.Forall₂.nil, h⟩
  | cons a l₁ ih =>
    intro l₂ m h
    cases h with
    | cons hab h' =>
      obtain ⟨m₁, m₂, rfl, h₁, h₂⟩ := ih h'
      exact ⟨_ :: m₁, m₂, rfl, List.Forall₂.cons hab h₁, h₂⟩

theorem holderEvolve_refl (s : SignalHolder) : holderEvolve s s :=
  ⟨rfl, rfl, le_refl _, s.slots, [], by simp, forall₂_entryEvolve_refl _, by simp⟩

/-- Compose two entrywise evolutions. -/
theorem forall₂_entryEvolve_trans :
    ∀ {l₁ l₂ l₃ : List (Nat × Option Callback)},
      List.Forall₂ entryEvolve l₁ l₂ → List.Forall₂ entryEvolve l₂ l₃ →
      List.Forall₂ entryEvolve l₁ l₃ := by
  intro l₁ l₂ l₃ h₁ h₂
  induction h₁ generalizing l₃ with
  | nil => cases h₂; exact List.Forall₂.nil
  | cons hab h ih =>
    cases h₂ with
    | cons hbc h' => exact List.Forall₂.cons (entryEvolve_trans hab hbc) (ih h')

/-- Every element of the right-hand side of a `Forall₂` is related to some
element of the left-hand side. -/
theorem forall₂_mem_right {R : α → β → Prop} :
    ∀ {l : List α} {m : List β}, List.Forall₂ R l m → ∀ b ∈ m, ∃ a ∈ l, R a b := by
  intro l m h
  induction h with
  | nil => intro b hb; cases hb
  | cons hab h ih =>
    intro b hb
    rcases List.mem_cons.1 hb with rfl | hb
    · exact ⟨_, List.mem_cons_self _ _, hab⟩
    · obtain ⟨a, ha, hr⟩ := ih b hb
      exact ⟨a, List.mem_cons_of_mem _ ha, hr⟩

theorem holderEvolve_trans {s₁ s₂ s₃ : SignalHolder}
    (h₁ : holderEvolve s₁ s₂) (h₂ : holderEvolve s₂ s₃) : holderEvolve s₁ s₃ := by
  obtain ⟨he₁, ht₁, hn₁, mid₁, ext₁, hs₁, hf₁, hx₁⟩ := h₁
  obtain ⟨he₂, ht₂, hn₂, mid₂, ext₂, hs₂, hf₂, hx₂⟩ := h₂
  rw [hs₁] at hf₂
  obtain ⟨m₁, m₂, rfl, hfa, hfb⟩ := forall₂_append_left_split hf₂
  refine ⟨he₂.trans he₁, ht₂.trans ht₁, hn₁.trans hn₂, m₁, m₂ ++ ext₂,
    by simp [hs₂], forall₂_entryEvolve_trans hf₁ hfa, ?_⟩
  intro e he
  rcases List.mem_append.1 he with h | h
  · obtain ⟨a, ha, hr⟩ := forall₂_mem_right hfb e h
    rw [hr.1]
    exact hx₁ a ha
  · exact le_trans hn₁ (hx₂ e h)

theorem disconnect_evolve (s : SignalHolder) (id : Nat) (h : s.emitting ≠ 0) :
    holderEvolve s (disconnect s id) := by
  refine ⟨disconnect_emitting s id, disconnect_trackers s id,
    le_of_eq (disconnect_nextId s id).symm, (disconnect s id).slots, [],
    by simp, ?_, by simp⟩
  simp only [disconnect, if_pos h]
  rw [List.forall₂_map_right_iff]
  refine List.forall₂_same.2 fun e _ => ?_
  by_cases hid : e.1 = id
  · simp only [hid, if_pos rfl]
    exact ⟨hid.symm, Or.inr rfl⟩
  · simp only [if_neg hid]
    exact entryEvolve_refl e

theorem clear_evolve (s : SignalHolder) (h : s.emitting ≠ 0) :
    holderEvolve s (clear s) := by
  refine ⟨clear_emitting s, clear_trackers s, le_of_eq (clear_nextId s).symm,
    (clear s).slots, [], by simp, ?_, by simp⟩
  simp only [clear, if_pos h]
  rw [List.forall₂_map_right_iff]
  exact List.forall₂_same.2 fun e _ => ⟨rfl, Or.inr rfl⟩

theorem connect_evolve (s : SignalHolder) (cb : Callback) :
    holderEvolve s (connect s cb).1 := by
  refine ⟨rfl, rfl, Nat.le_succ _, s.slots, [(s.nextId, some cb)], rfl,
    forall₂_entryEvolve_refl _, ?_⟩
  intro e he
  rcases List.mem_singleton.1 he with rfl
  exact le_refl _

theorem runAct_evolve (s : SignalHolder) (a : Act) (h : s.emitting ≠ 0) :
    holderEvolve s (runAct s a) := by
  cases a with
  | disc id => exact disconnect_evolve s id h
  | clearAll => exact clear_evolve s h
  | conn tag acts => exact connect_evolve s (tag, acts)

theorem runActs_evolve (acts : List Act) (s : SignalHolder) (h : s.emitting ≠ 0) :
    holderEvolve s (runActs acts s) := by
  induction acts generalizing s with
  | nil => exact holderEvolve_refl s
  | cons a rest ih =>
    have h' : (runAct s a).emitting ≠ 0 := by rw [runAct_emitting]; exact h
    exact holderEvolve_trans (runAct_evolve s a h) (ih (runAct s a) h')

/-! ### Well-formedness preservation -/

theorem keys_map_tombstone (l : List (Nat × Option Callback))
    (f : Nat × Option Callback → Nat × Option Callback)
    (hf : ∀ e, (f e).1 = e.1) : (l.map f).map Prod.fst = l.map Prod.fst := by
  rw [List.map_map]
  exact List.map_congr_left fun e _ => hf e

theorem WF_nodup_keys {s : SignalHolder} (h : WF s) :
    (s.slots.map Prod.fst).Nodup := by
  have := List.chain'_iff_pairwise.1 h.1
  exact this.imp Nat.ne_of_lt

theorem disconnect_WF {s : SignalHolder} (id : Nat) (h : WF s) :
    WF (disconnect s id) := by
  unfold disconnect
  split
  · constructor
    · rw [keys_map_tombstone]
      · exact h.1
      · intro e; by_cases hid : e.1 = id <;> simp [hid]
    · intro e he
      obtain ⟨e₀, he₀, rfl⟩ := List.mem_map.1 he
      have : e₀.1 < s.nextId := h.2 e₀ he₀
      by_cases hid : e₀.1 = id <;> simp [hid] <;> omega
  · constructor
    · rw [List.chain'_iff_pairwise]
      exact List.Pairwise.sublist ((List.eraseP_sublist _).map _)
        (List.chain'_iff_pairwise.1 h.1)
    · intro e he
      exact h.2 e (List.eraseP_subset _ he)

theorem clear_WF {s : SignalHolder} (h : WF s) : WF (clear s) := by
  unfold clear
  split
  · constructor
    · rw [keys_map_tombstone]
      · exact h.1
      · intro e; rfl
    · intro e he
      obtain ⟨e₀, he₀, rfl⟩ := List.mem_map.1 he
      exact h.2 e₀ he₀
  · exact ⟨List.chain'_nil, by intro e he; cases he⟩

theorem connect_WF {s : SignalHolder} (cb : Callback) (h : WF s) :
    WF (connect s cb).1 := by
  constructor
  · show ((s.slots ++ [(s.nextId, some cb)]).map Prod.fst).Chain' (· < ·)
    rw [List.map_append, List.chain'_iff_pairwise, List.pairwise_append]
    refine ⟨List.chain'_iff_pairwise.1 h.1, List.pairwise_singleton _ _, ?_⟩
    intro x hx y hy
    rw [List.mem_map] at hx
    obtain ⟨e, he, rfl⟩ := hx
    rcases List.mem_singleton.1 hy with rfl
    exact h.2 e he
  · intro e he
    rcases List.mem_append.1 he with he | he
    · exact lt_trans (h.2 e he) (Nat.lt_succ_self _)
    · rcases List.mem_singleton.1 he with rfl
      exact Nat.lt_succ_self _

theorem runAct_WF {s : SignalHolder} (a : Act) (h : WF s) : WF (runAct s a) := by
  cases a with
  | disc id => exact disconnect_WF id h
  | clearAll => exact clear_WF h
  | conn tag acts => exact connect_WF (tag, acts) h

theorem runActs_WF {s : SignalHolder} (acts : List Act) (h : WF s) :
    WF (runActs acts s) := by
  induction acts generalizing s with
  | nil => exact h
  | cons a rest ih => exact ih (runAct_WF a h)

/-! ### Lookup lemmas -/

theorem lookup_map_tombstone (l : List (Nat × Option Callback)) (j id : Nat) :
    (l.map (fun e => if e.1 = j then (e.1, none) else e)).lookup id =
      if id = j then (l.lookup id).map (fun _ => (none : Option Callback))
      else l.lookup id := by
  induction l with
  | nil => simp
  | cons e rest ih =>
    obtain ⟨k, c⟩ := e
    by_cases hkj : k = j
    · subst hkj
      by_cases hik : id = k
      · subst hik
        simp [List.lookup_cons]
      · have hbeq : (id == k) = false := by simp [hik]
        simp [List.lookup_cons, hbeq, hik, ih]
    · by_cases hik : id = k
      · subst hik
        have : id ≠ j := hkj
        simp [List.lookup_cons, this]
      · have hbeq : (id == k) = false := by simp [hik]
        simp [List.lookup_cons, hbeq, hkj, ih]

theorem forall₂_entryEvolve_lookup {l m : List (Nat × Option Callback)}
    (h : List.Forall₂ entryEvolve l m) (id : Nat) (c : Option Callback)
    (hl : l.lookup id = some c) :
    m.lookup id = some c ∨ m.lookup id = some none := by
  induction h with
  | nil => simp at hl
  | cons hab h ih =>
    rename_i a b l' m'
    obtain ⟨k, ca⟩ := a
    obtain ⟨k', cb⟩ := b
    have hk : k' = k := hab.1
    subst hk
    by_cases hik : id = k'
    · subst hik
      simp only [List.lookup_cons_self] at hl ⊢
      rcases hab.2 with hcb | hcb
      · replace hcb : cb = ca := hcb
        subst hcb
        left; exact hl
      · replace hcb : cb = none := hcb
        subst hcb
        right; rfl
    · have hbeq : (id == k') = false := by simp [hik]
      simp only [List.lookup_cons, hbeq] at hl ⊢
      exact ih hl

theorem holderEvolve_lookup {s s' : SignalHolder} (h : holderEvolve s s')
    (id : Nat) (c : Option Callback) (hl : s.slots.lookup id = some c) :
    s'.slots.lookup id = some c ∨ s'.slots.lookup id = some none := by
  obtain ⟨-, -, -, mid, ext, hs, hf, -⟩ := h
  rw [hs, List.lookup_append]
  rcases forall₂_entryEvolve_lookup hf id c hl with hm | hm <;> rw [hm]
  · left; rfl
  · right; rfl

theorem eraseP_eq_filter_of_nodup (l : List (Nat × Option Callback)) (id : Nat)
    (hnd : (l.map Prod.fst).Nodup) :
    l.eraseP (fun e => e.1 == id) = l.filter (fun e => !(e.1 == id)) := by
  induction l with
  | nil => rfl
  | cons e rest ih =>
    rcases List.nodup_cons.1 hnd with ⟨hni, hnd'⟩
    by_cases hei : e.1 = id
    · subst hei
      rw [List.eraseP_cons_of_pos (by simp), List.filter_cons_of_neg (by simp)]
      refine (List.filter_eq_self.2 fun x hx => ?_).symm
      have : x.1 ≠ e.1 := fun hc => hni (hc ▸ List.mem_map_of_mem Prod.fst hx)
      simp [this]
    · rw [List.eraseP_cons_of_neg (by simp [hei]),
        List.filter_cons_of_pos (by simp [hei]), ih hnd']

/-! ### The sorted list and the iterator -/

theorem find?_cons_pos {α : Type} (p : α → Bool) (a : α) (l : List α)
    (h : p a = true) : (a :: l).find? p = some a :=
  List.find?_cons_of_pos l h

theorem find?_cons_neg {α : Type} (p : α → Bool) (a : α) (l : List α)
    (h : ¬p a = true) : (a :: l).find? p = l.find? p :=
  List.find?_cons_of_neg l h

theorem filter_cons_pos {α : Type} (p : α → Bool) (a : α) (l : List α)
    (h : p a = true) : (a :: l).filter p = a :: l.filter p :=
  List.filter_cons_of_pos h

theorem filter_cons_neg {α : Type} (p : α → Bool) (a : α) (l : List α)
    (h : ¬p a = true) : (a :: l).filter p = l.filter p :=
  List.filter_cons_of_neg h

theorem find?_ge_sorted {l : List (Nat × Option Callback)} {pos id : Nat}
    {c : Option Callback} (hs : (l.map Prod.fst).Chain' (· < ·))
    (h : l.find? (fun e => decide (pos ≤ e.1)) = some (id, c)) :
    pos ≤ id ∧ (id, c) ∈ l ∧ ∀ e ∈ l, pos ≤ e.1 → id ≤ e.1 := by
  induction l with
  | nil => simp at h
  | cons e rest ih =>
    have hpw := List.chain'_iff_pairwise.1 hs
    rw [List.map_cons, List.pairwise_cons] at hpw
    by_cases hpe : pos ≤ e.1
    · rw [find?_cons_pos (fun e => decide (pos ≤ e.1)) e rest (decide_eq_true hpe)] at h
      obtain rfl : e = (id, c) := Option.some.inj h
      refine ⟨hpe, List.mem_cons_self _ _, ?_⟩
      intro e' he' _
      rcases List.mem_cons.1 he' with rfl | he'
      · exact le_refl _
      · exact le_of_lt (hpw.1 _ (List.mem_map_of_mem Prod.fst he'))
    · rw [find?_cons_neg (fun e => decide (pos ≤ e.1)) e rest (fun hq => hpe (of_decide_eq_true hq))] at h
      have hs' : (rest.map Prod.fst).Chain' (· < ·) :=
        (List.chain'_cons'.1 (by simpa using hs)).2
      obtain ⟨h1, h2, h3⟩ := ih hs' h
      refine ⟨h1, List.mem_cons_of_mem _ h2, ?_⟩
      intro e' he' hpe'
      rcases List.mem_cons.1 he' with rfl | he'
      · exact absurd hpe' hpe
      · exact h3 e' he' hpe'

theorem find?_ge_none {l : List (Nat × Option Callback)} {pos : Nat}
    (h : l.find? (fun e => decide (pos ≤ e.1)) = none) :
    ∀ e ∈ l, e.1 < pos := by
  intro e he
  have := List.find?_eq_none.1 h e he
  simpa using this

theorem filter_ge_split {l : List (Nat × Option Callback)} {pos id : Nat}
    {c : Option Callback} (hs : (l.map Prod.fst).Chain' (· < ·))
    (h : l.find? (fun e => decide (pos ≤ e.1)) = some (id, c)) :
    l.filter (fun e => decide (pos ≤ e.1)) =
      (id, c) :: l.filter (fun e => decide (id + 1 ≤ e.1)) := by
  induction l with
  | nil => simp at h
  | cons e rest ih =>
    have hpw := List.chain'_iff_pairwise.1 hs
    rw [List.map_cons, List.pairwise_cons] at hpw
    have hs' : (rest.map Prod.fst).Chain' (· < ·) :=
      (List.chain'_cons'.1 (by simpa using hs)).2
    by_cases hpe : pos ≤ e.1
    · rw [find?_cons_pos (fun e => decide (pos ≤ e.1)) e rest (decide_eq_true hpe)] at h
      obtain rfl : e = (id, c) := Option.some.inj h
      rw [filter_cons_pos (fun e => decide (pos ≤ e.1)) (id, c) rest (decide_eq_true hpe),
        filter_cons_neg (fun e => decide (id + 1 ≤ e.1)) (id, c) rest
          (by intro hq; have := of_decide_eq_true hq; omega)]
      congr 1
      refine List.filter_congr fun x hx => ?_
      have hgt : id < x.1 := hpw.1 _ (List.mem_map_of_mem Prod.fst hx)
      have hpid : pos ≤ id := hpe
      rw [decide_eq_decide]
      omega
    · rw [find?_cons_neg (fun e => decide (pos ≤ e.1)) e rest (fun hq => hpe (of_decide_eq_true hq))] at h
      have h1 : pos ≤ id := (find?_ge_sorted hs' h).1
      rw [filter_cons_neg (fun e => decide (pos ≤ e.1)) e rest
          (fun hq => hpe (of_decide_eq_true hq)),
        filter_cons_neg (fun e => decide (id + 1 ≤ e.1)) e rest
          (by intro hq; have := of_decide_eq_true hq; omega),
        ih hs' h]

/-! ### The master specification of the emission loop -/

theorem mem_lookup_of_nodup {l : List (Nat × Option Callback)}
    (hnd : (l.map Prod.fst).Nodup) {id : Nat} {c : Option Callback}
    (h : (id, c) ∈ l) : l.lookup id = some c := by
  induction l with
  | nil => cases h
  | cons e rest ih =>
    rcases List.nodup_cons.1 hnd with ⟨hni, hnd'⟩
    rcases List.mem_cons.1 h with rfl | h'
    · exact List.lookup_cons_self
    · have hne : id ≠ e.1 := by
        intro hc
        exact hni (hc ▸ List.mem_map_of_mem Prod.fst h')
      obtain ⟨k, c'⟩ := e
      have hbeq : (id == k) = false := by simpa using hne
      rw [List.lookup_cons]
      simp only [hbeq]
      exact ih hnd' h'

theorem holderEvolve_keys {s s' : SignalHolder} (h : holderEvolve s s') :
    ∀ e ∈ s'.slots, e.1 ∈ s.slots.map Prod.fst ∨ s.nextId ≤ e.1 := by
  obtain ⟨-, -, -, mid, ext, hs, hf, hx⟩ := h
  intro e he
  rw [hs] at he
  rcases List.mem_append.1 he with he | he
  · obtain ⟨a, ha, hr⟩ := forall₂_mem_right hf e he
    left
    rw [hr.1]
    exact List.mem_map_of_mem Prod.fst ha
  · right
    exact hx e he

theorem emitLoop_succ (a1 a2 a3 fuel : Nat) (s : SignalHolder) (pos : Nat) :
    emitLoop a1 a2 a3 (fuel + 1) s pos =
      match s.slots.find? (fun e => decide (pos ≤ e.1)) with
      | none => some (s, [], [])
      | some (id, none) =>
        match emitLoop a1 a2 a3 fuel s (id + 1) with
        | none => none
        | some (s', tr, vis) => some (s', tr, id :: vis)
      | some (id, some cb) =>
        match emitLoop a1 a2 a3 fuel (runActs cb.2 s) (id + 1) with
        | none => none
        | some (s', tr, vis) => some (s', ⟨id, cb.1, a1, a2, a3⟩ :: tr, id :: vis)
    := rfl

/-- Master specification of the emission loop, proved by induction on the
fuel: the holder only evolves (no node is erased, contents are at most
tombstoned, appended nodes carry fresh identities, depth and tracker set are
unchanged), well-formedness is preserved, the iterator visits every node at
or past `pos` still present when the loop completes, every such node whose
content survived the loop was invoked with the emitted arguments, the
invocation trace is strictly increasing in node identity starting at or past
`pos`, and every invoked node either existed at loop entry or was connected
during the loop (fresh identity). -/
theorem emitLoop_spec (a1 a2 a3 : Nat) :
    ∀ (fuel : Nat) (s : SignalHolder) (pos : Nat) (s' : SignalHolder)
      (tr : List Invocation) (vis : List Nat),
      s.emitting ≠ 0 → WF s →
      emitLoop a1 a2 a3 fuel s pos = some (s', tr, vis) →
      holderEvolve s s' ∧ WF s' ∧
      (∀ e ∈ s'.slots, pos ≤ e.1 → e.1 ∈ vis) ∧
      (∀ e ∈ s'.slots, pos ≤ e.1 → ∀ tag acts, e.2 = some (tag, acts) →
        (⟨e.1, tag, a1, a2, a3⟩ : Invocation) ∈ tr) ∧
      (tr.map Invocation.slotId).Chain' (· < ·) ∧
      (∀ inv ∈ tr, pos ≤ inv.slotId) ∧
      (∀ inv ∈ tr, inv.slotId ∈ s.slots.map Prod.fst ∨ s.nextId ≤ inv.slotId) ∧
      (∀ v ∈ vis, pos ≤ v) := by
  intro fuel
  induction fuel with
  | zero =>
    intro s pos s' tr vis _ _ hrun
    simp [emitLoop] at hrun
  | succ fuel ih =>
    intro s pos s' tr vis hne hWF hrun
    rw [emitLoop_succ] at hrun
    split at hrun
    · -- the iterator is already at end(): no node at or past pos
      rename_i hfind
      obtain ⟨rfl, rfl, rfl⟩ : s = s' ∧ [] = tr ∧ [] = vis := by
        simpa using hrun
      have hnone := find?_ge_none hfind
      refine ⟨holderEvolve_refl s, hWF, ?_, ?_, ?_, ?_, ?_, ?_⟩
      · intro e he hpe
        exact absurd hpe (Nat.not_le.2 (hnone e he))
      · intro e he hpe
        exact absurd hpe (Nat.not_le.2 (hnone e he))
      · exact List.chain'_nil
      · intro inv hinv; cases hinv
      · intro inv hinv; cases hinv
      · intro v hv; cases hv
    · -- the iterator stops at a tombstoned node: skip it
      rename_i id hfind
      obtain ⟨hposid, hmem, hmin⟩ := find?_ge_sorted hWF.1 hfind
      have hidlt : id < s.nextId := hWF.2 _ hmem
      split at hrun
      · cases hrun
      · rename_i s₂ tr₂ vis₂ hrec
        obtain ⟨rfl, rfl, rfl⟩ : s₂ = s' ∧ tr₂ = tr ∧ id :: vis₂ = vis := by
          simpa using hrun
        obtain ⟨hev, hWF', hvis, hinv, hchain, htrlo, htrmem, hvislo⟩ :=
          ih s (id + 1) s₂ tr₂ vis₂ hne hWF hrec
        have hkeys := holderEvolve_keys hev
        refine ⟨hev, hWF', ?_, ?_, hchain, ?_, htrmem, ?_⟩
        · intro e he hpe
          by_cases hle : id + 1 ≤ e.1
          · exact List.mem_cons_of_mem _ (hvis e he hle)
          · rcases hkeys e he with hk | hk
            · obtain ⟨e₀, he₀, hfst⟩ := List.mem_map.1 hk
              have := hmin e₀ he₀ (by omega)
              have : e.1 = id := by omega
              rw [this]
              exact List.mem_cons_self _ _
            · omega
        · intro e he hpe tag acts hc
          by_cases hle : id + 1 ≤ e.1
          · exact hinv e he hle tag acts hc
          · exfalso
            rcases hkeys e he with hk | hk
            · obtain ⟨e₀, he₀, hfst⟩ := List.mem_map.1 hk
              have := hmin e₀ he₀ (by omega)
              have heid : e.1 = id := by omega
              have hl₀ : s.slots.lookup id = some none :=
                mem_lookup_of_nodup (WF_nodup_keys hWF) hmem
              have hl' : s₂.slots.lookup id = some none := by
                rcases holderEvolve_lookup hev id none hl₀ with h | h <;> exact h
              have hle' : s₂.slots.lookup e.1 = some e.2 :=
                mem_lookup_of_nodup (WF_nodup_keys hWF') (by
                  have he' : e = (e.1, e.2) := rfl
                  rw [he'] at he; exact he)
              rw [heid, hl'] at hle'
              have : (none : Option Callback) = e.2 := Option.some.inj hle'
              rw [hc] at this
              cases this
            · omega
        · intro inv hinv'
          have := htrlo inv hinv'
          omega
        · intro v hv
          rcases List.mem_cons.1 hv with rfl | hv
          · exact hposid
          · have := hvislo v hv
            omega
    · -- the iterator stops at a live node: invoke its callback
      rename_i id cb hfind
      obtain ⟨hposid, hmem, hmin⟩ := find?_ge_sorted hWF.1 hfind
      have hidlt : id < s.nextId := hWF.2 _ hmem
      split at hrun
      · cases hrun
      · rename_i s₂ tr₂ vis₂ hrec
        obtain ⟨rfl, rfl, rfl⟩ :
            s₂ = s' ∧ (⟨id, cb.1, a1, a2, a3⟩ : Invocation) :: tr₂ = tr ∧
              id :: vis₂ = vis := by
          simpa using hrun
        have hne₂ : (runActs cb.2 s).emitting ≠ 0 := by
          rw [runActs_emitting]; exact hne
        have hWF₂ : WF (runActs cb.2 s) := runActs_WF cb.2 hWF
        have hevs₂ : holderEvolve s (runActs cb.2 s) := runActs_evolve cb.2 s hne
        obtain ⟨hev, hWF', hvis, hinv, hchain, htrlo, htrmem, hvislo⟩ :=
          ih (runActs cb.2 s) (id + 1) s₂ tr₂ vis₂ hne₂ hWF₂ hrec
        have hevTot : holderEvolve s s₂ := holderEvolve_trans hevs₂ hev
        have hkeys := holderEvolve_keys hevTot
        have hnext₂ : s.nextId ≤ (runActs cb.2 s).nextId := hevs₂.2.2.1
        refine ⟨hevTot, hWF', ?_, ?_, ?_, ?_, ?_, ?_⟩
        · intro e he hpe
          by_cases hle : id + 1 ≤ e.1
          · exact List.mem_cons_of_mem _ (hvis e he hle)
          · rcases hkeys e he with hk | hk
            · obtain ⟨e₀, he₀, hfst⟩ := List.mem_map.1 hk
              have := hmin e₀ he₀ (by omega)
              have : e.1 = id := by omega
              rw [this]
              exact List.mem_cons_self _ _
            · omega
        · intro e he hpe tag acts hc
          by_cases hle : id + 1 ≤ e.1
          · exact List.mem_cons_of_mem _ (hinv e he hle tag acts hc)
          · rcases hkeys e he with hk | hk
            · obtain ⟨e₀, he₀, hfst⟩ := List.mem_map.1 hk
              have := hmin e₀ he₀ (by omega)
              have heid : e.1 = id := by omega
              have hl₀ : s.slots.lookup id = some (some cb) :=
                mem_lookup_of_nodup (WF_nodup_keys hWF) hmem
              have hl' : s₂.slots.lookup e.1 = some e.2 :=
                mem_lookup_of_nodup (WF_nodup_keys hWF') (by
                  have he' : e = (e.1, e.2) := rfl
                  rw [he'] at he; exact he)
              rw [heid] at hl'
              rcases holderEvolve_lookup hevTot id (some cb) hl₀ with h | h
              · rw [h] at hl'
                have hcb : some cb = e.2 := Option.some.inj hl'
                rw [hc] at hcb
                have hcb' : cb = (tag, acts) := Option.some.inj hcb
                rw [heid, hcb']
                exact List.mem_cons_self _ _
              · exfalso
                rw [h] at hl'
                have : (none : Option Callback) = e.2 := Option.some.inj hl'
                rw [hc] at this
                cases this
            · omega
        · rw [List.map_cons, List.chain'_cons']
          refine ⟨?_, hchain⟩
          intro y hy
          have hytr : y ∈ tr₂.map Invocation.slotId := List.mem_of_mem_head? hy
          obtain ⟨inv, hinv', rfl⟩ := List.mem_map.1 hytr
          have := htrlo inv hinv'
          show id < inv.slotId
          omega
        · intro inv hinv'
          rcases List.mem_cons.1 hinv' with rfl | hinv'
          · exact hposid
          · have := htrlo inv hinv'
            show pos ≤ inv.slotId
            omega
        · intro inv hinv'
          rcases List.mem_cons.1 hinv' with rfl | hinv'
          · left
            exact List.mem_map_of_mem Prod.fst hmem
          · rcases htrmem inv hinv' with hk | hk
            · obtain ⟨e₀, he₀, hfst⟩ := List.mem_map.1 hk
              rcases holderEvolve_keys hevs₂ e₀ he₀ with hk₀ | hk₀
              · left
                rw [← hfst]
                exact hk₀
              · right; omega
            · right; omega
        · intro v hv
          rcases List.mem_cons.1 hv with rfl | hv
          · exact hposid
          · have := hvislo v hv
            omega

/-! ### Tombstones persist; a disconnect action tombstones its target -/

theorem lookup_mem {l : List (Nat × Option Callback)} {id : Nat}
    {c : Option Callback} (h : l.lookup id = some c) : (id, c) ∈ l := by
  induction l with
  | nil => simp at h
  | cons e rest ih =>
    obtain ⟨k, c'⟩ := e
    rw [List.lookup_cons] at h
    cases hbeq : id == k with
    | true =>
      rw [hbeq] at h
      obtain rfl : c' = c := Option.some.inj h
      obtain rfl : id = k := by simpa using hbeq
      exact List.mem_cons_self _ _
    | false =>
      rw [hbeq] at h
      exact List.mem_cons_of_mem _ (ih h)

theorem runActs_tomb {s : SignalHolder} {j : Nat} (hne : s.emitting ≠ 0)
    (acts : List Act) (h : s.slots.lookup j = some none) :
    (runActs acts s).slots.lookup j = some none := by
  rcases holderEvolve_lookup (runActs_evolve acts s hne) j none h with h' | h' <;>
    exact h'

theorem disconnect_tombstones {s : SignalHolder} {j : Nat} {c : Option Callback}
    (hne : s.emitting ≠ 0) (h : s.slots.lookup j = some c) :
    (disconnect s j).slots.lookup j = some none := by
  unfold disconnect
  rw [if_pos hne]
  show (s.slots.map _).lookup j = some none
  rw [lookup_map_tombstone, if_pos rfl, h]
  rfl

theorem runActs_disc {j : Nat} (acts : List Act) :
    ∀ (s : SignalHolder) (c : Option Callback), s.emitting ≠ 0 →
      Act.disc j ∈ acts → s.slots.lookup j = some c →
      (runActs acts s).slots.lookup j = some none := by
  induction acts with
  | nil => intro s c _ hd; cases hd
  | cons a rest ih =>
    intro s c hne hd h
    have hne' : (runAct s a).emitting ≠ 0 := by rw [runAct_emitting]; exact hne
    have hstep : runActs (a :: rest) s = runActs rest (runAct s a) := rfl
    rw [hstep]
    rcases List.mem_cons.1 hd with heq | hd'
    · have hj : (runAct s a).slots.lookup j = some none := by
        rw [← heq]
        exact disconnect_tombstones hne h
      exact runActs_tomb hne' rest hj
    · rcases holderEvolve_lookup (runAct_evolve s a hne) j c h with h' | h'
      · exact ih (runAct s a) c hne' hd' h'
      · exact ih (runAct s a) none hne' hd' h'

/-- A node already tombstoned when the loop is at `pos` is never invoked in
the remaining iteration and is still tombstoned when the loop completes. -/
theorem emitLoop_tomb (a1 a2 a3 : Nat) :
    ∀ (fuel : Nat) (s : SignalHolder) (pos : Nat) (s' : SignalHolder)
      (tr : List Invocation) (vis : List Nat) (j : Nat),
      s.emitting ≠ 0 → WF s →
      s.slots.lookup j = some none →
      emitLoop a1 a2 a3 fuel s pos = some (s', tr, vis) →
      s'.slots.lookup j = some none ∧ ∀ inv ∈ tr, inv.slotId ≠ j := by
  intro fuel
  induction fuel with
  | zero =>
    intro s pos s' tr vis j _ _ _ hrun
    simp [emitLoop] at hrun
  | succ fuel ih =>
    intro s pos s' tr vis j hne hWF hj hrun
    rw [emitLoop_succ] at hrun
    split at hrun
    · rename_i hfind
      obtain ⟨rfl, rfl, rfl⟩ : s = s' ∧ [] = tr ∧ [] = vis := by
        simpa using hrun
      exact ⟨hj, fun inv h => absurd h (List.not_mem_nil inv)⟩
    · rename_i id hfind
      split at hrun
      · cases hrun
      · rename_i s₂ tr₂ vis₂ hrec
        obtain ⟨rfl, rfl, rfl⟩ : s₂ = s' ∧ tr₂ = tr ∧ id :: vis₂ = vis := by
          simpa using hrun
        exact ih s (id + 1) s₂ tr₂ vis₂ j hne hWF hj hrec
    · rename_i id cb hfind
      split at hrun
      · cases hrun
      · rename_i s₂ tr₂ vis₂ hrec
        obtain ⟨rfl, rfl, rfl⟩ :
            s₂ = s' ∧ (⟨id, cb.1, a1, a2, a3⟩ : Invocation) :: tr₂ = tr ∧
              id :: vis₂ = vis := by
          simpa using hrun
        have hidj : id ≠ j := by
          intro hc
          have hmemid := (find?_ge_sorted hWF.1 hfind).2.1
          have hlook := mem_lookup_of_nodup (WF_nodup_keys hWF) hmemid
          rw [hc, hj] at hlook
          cases Option.some.inj hlook
        have hne₂ : (runActs cb.2 s).emitting ≠ 0 := by
          rw [runActs_emitting]; exact hne
        have hWF₂ : WF (runActs cb.2 s) := runActs_WF cb.2 hWF
        have hj₂ : (runActs cb.2 s).slots.lookup j = some none :=
          runActs_tomb hne cb.2 hj
        obtain ⟨hj', htr⟩ := ih (runActs cb.2 s) (id + 1) s₂ tr₂ vis₂ j hne₂ hWF₂ hj₂ hrec
        refine ⟨hj', ?_⟩
        intro inv hinv
        rcases List.mem_cons.1 hinv with rfl | hinv
        · exact hidj
        · exact htr inv hinv

/-- A node whose callback disconnects the node itself is tombstoned once the
loop completes (whether or not it was still live when the iterator reached
it). -/
theorem emitLoop_selfdisc (a1 a2 a3 : Nat) :
    ∀ (fuel : Nat) (s : SignalHolder) (pos : Nat) (s' : SignalHolder)
      (tr : List Invocation) (vis : List Nat) (i tag : Nat) (acts : List Act),
      s.emitting ≠ 0 → WF s →
      s.slots.lookup i = some (some (tag, acts)) →
      Act.disc i ∈ acts → pos ≤ i →
      emitLoop a1 a2 a3 fuel s pos = some (s', tr, vis) →
      s'.slots.lookup i = some none := by
  intro fuel
  induction fuel with
  | zero =>
    intro s pos s' tr vis i tag acts _ _ _ _ _ hrun
    simp [emitLoop] at hrun
  | succ fuel ih =>
    intro s pos s' tr vis i tag acts hne hWF hi hd hpi hrun
    rw [emitLoop_succ] at hrun
    split at hrun
    · rename_i hfind
      exfalso
      have hmemi := lookup_mem hi
      have := find?_ge_none hfind _ hmemi
      omega
    · rename_i id hfind
      split at hrun
      · cases hrun
      · rename_i s₂ tr₂ vis₂ hrec
        obtain ⟨rfl, rfl, rfl⟩ : s₂ = s' ∧ tr₂ = tr ∧ id :: vis₂ = vis := by
          simpa using hrun
        obtain ⟨hposid, hmem, hmin⟩ := find?_ge_sorted hWF.1 hfind
        have hidi : id ≠ i := by
          intro hc
          have hlook := mem_lookup_of_nodup (WF_nodup_keys hWF) hmem
          rw [hc, hi] at hlook
          cases Option.some.inj hlook
        have hii : id + 1 ≤ i := by
          have := hmin _ (lookup_mem hi) hpi
          omega
        exact ih s (id + 1) s₂ tr₂ vis₂ i tag acts hne hWF hi hd hii hrec
    · rename_i id cb hfind
      split at hrun
      · cases hrun
      · rename_i s₂ tr₂ vis₂ hrec
        obtain ⟨rfl, rfl, rfl⟩ :
            s₂ = s' ∧ (⟨id, cb.1, a1, a2, a3⟩ : Invocation) :: tr₂ = tr ∧
              id :: vis₂ = vis := by
          simpa using hrun
        obtain ⟨hposid, hmem, hmin⟩ := find?_ge_sorted hWF.1 hfind
        have hne₂ : (runActs cb.2 s).emitting ≠ 0 := by
          rw [runActs_emitting]; exact hne
        have hWF₂ : WF (runActs cb.2 s) := runActs_WF cb.2 hWF
        by_cases hidi : id = i
        · have hlook := mem_lookup_of_nodup (WF_nodup_keys hWF) hmem
          rw [hidi, hi] at hlook
          have hcbe : cb = (tag, acts) :=
            Option.some.inj (Option.some.inj hlook.symm)
          have hi₂ : (runActs cb.2 s).slots.lookup i = some none := by
            rw [hcbe]
            exact runActs_disc acts s (some (tag, acts)) hne hd hi
          exact (emitLoop_tomb a1 a2 a3 fuel (runActs cb.2 s) (id + 1) s₂ tr₂ vis₂ i
            hne₂ hWF₂ hi₂ hrec).1
        · have hii : id + 1 ≤ i := by
            have := hmin _ (lookup_mem hi) hpi
            omega
          rcases holderEvolve_lookup (runActs_evolve cb.2 s hne) i (some (tag, acts)) hi
            with h' | h'
          · exact ih (runActs cb.2 s) (id + 1) s₂ tr₂ vis₂ i tag acts hne₂ hWF₂ h' hd hii hrec
          · exact (emitLoop_tomb a1 a2 a3 fuel (runActs cb.2 s) (id + 1) s₂ tr₂ vis₂ i
              hne₂ hWF₂ h' hrec).1

/-- If the callback of node `i` disconnects node `j` (an existing node with
`i < j`, so not yet visited when `i` is invoked) and node `i` is invoked
during the loop, then node `j` is not invoked during the loop. -/
theorem emitLoop_otherdisc (a1 a2 a3 : Nat) :
    ∀ (fuel : Nat) (s : SignalHolder) (pos : Nat) (s' : SignalHolder)
      (tr : List Invocation) (vis : List Nat) (i tag : Nat) (acts : List Act)
      (j : Nat) (cj : Option Callback),
      s.emitting ≠ 0 → WF s →
      s.slots.lookup i = some (some (tag, acts)) →
      Act.disc j ∈ acts → i < j →
      s.slots.lookup j = some cj →
      emitLoop a1 a2 a3 fuel s pos = some (s', tr, vis) →
      (∃ inv ∈ tr, inv.slotId = i) →
      ∀ inv ∈ tr, inv.slotId ≠ j := by
  intro fuel
  induction fuel with
  | zero =>
    intro s pos s' tr vis i tag acts j cj _ _ _ _ _ _ hrun
    simp [emitLoop] at hrun
  | succ fuel ih =>
    intro s pos s' tr vis i tag acts j cj hne hWF hi hd hij hj hrun hitr
    rw [emitLoop_succ] at hrun
    split at hrun
    · rename_i hfind
      obtain ⟨rfl, rfl, rfl⟩ : s = s' ∧ [] = tr ∧ [] = vis := by
        simpa using hrun
      intro inv hinv
      cases hinv
    · rename_i id hfind
      split at hrun
      · cases hrun
      · rename_i s₂ tr₂ vis₂ hrec
        obtain ⟨rfl, rfl, rfl⟩ : s₂ = s' ∧ tr₂ = tr ∧ id :: vis₂ = vis := by
          simpa using hrun
        exact ih s (id + 1) s₂ tr₂ vis₂ i tag acts j cj hne hWF hi hd hij hj hrec hitr
    · rename_i id cb hfind
      split at hrun
      · cases hrun
      · rename_i s₂ tr₂ vis₂ hrec
        obtain ⟨rfl, rfl, rfl⟩ :
            s₂ = s' ∧ (⟨id, cb.1, a1, a2, a3⟩ : Invocation) :: tr₂ = tr ∧
              id :: vis₂ = vis := by
          simpa using hrun
        obtain ⟨hposid, hmem, hmin⟩ := find?_ge_sorted hWF.1 hfind
        have hne₂ : (runActs cb.2 s).emitting ≠ 0 := by
          rw [runActs_emitting]; exact hne
        have hWF₂ : WF (runActs cb.2 s) := runActs_WF cb.2 hWF
        have htrlo₂ := (emitLoop_spec a1 a2 a3 fuel (runActs cb.2 s) (id + 1) s₂ tr₂
          vis₂ hne₂ hWF₂ hrec).2.2.2.2.2.1
        by_cases hidi : id = i
        · -- node i is invoked right here; afterwards j is tombstoned
          have hlook := mem_lookup_of_nodup (WF_nodup_keys hWF) hmem
          rw [hidi, hi] at hlook
          have hcbe : cb = (tag, acts) :=
            Option.some.inj (Option.some.inj hlook.symm)
          have hj₂ : (runActs cb.2 s).slots.lookup j = some none := by
            rw [hcbe]
            exact runActs_disc acts s cj hne hd hj
          have htomb := (emitLoop_tomb a1 a2 a3 fuel (runActs cb.2 s) (id + 1)
            s₂ tr₂ vis₂ j hne₂ hWF₂ hj₂ hrec).2
          intro inv hinv
          rcases List.mem_cons.1 hinv with rfl | hinv
          · show id ≠ j
            omega
          · exact htomb inv hinv
        · -- node i is invoked strictly later
          intro inv hinv
          rcases List.mem_cons.1 hinv with rfl | hinv
          · -- the head is node id; if id = j then i would be invoked past j,
            -- impossible since invocations past this point have identity > j > i
            show id ≠ j
            intro hc
            obtain ⟨inv', hinv', hinv'i⟩ := hitr
            rcases List.mem_cons.1 hinv' with rfl | hinv'
            · exact hidi hinv'i
            · have h2 : id + 1 ≤ i :=
                le_of_le_of_eq (htrlo₂ inv' hinv') hinv'i
              omega
          · -- recurse; the hypotheses survive the invocation of node id
            rcases holderEvolve_lookup (runActs_evolve cb.2 s hne) i
              (some (tag, acts)) hi with h' | h'
            · obtain ⟨cj₂, hj₂⟩ :
                  ∃ cj₂, (runActs cb.2 s).slots.lookup j = some cj₂ := by
                rcases holderEvolve_lookup (runActs_evolve cb.2 s hne) j cj hj
                  with h | h
                · exact ⟨cj, h⟩
                · exact ⟨none, h⟩
              have hitr₂ : ∃ inv' ∈ tr₂, inv'.slotId = i := by
                obtain ⟨inv', hinv', hinv'i⟩ := hitr
                rcases List.mem_cons.1 hinv' with rfl | hinv'
                · exact absurd hinv'i hidi
                · exact ⟨inv', hinv', hinv'i⟩
              exact ih (runActs cb.2 s) (id + 1) s₂ tr₂ vis₂ i tag acts j cj₂
                hne₂ hWF₂ h' hd hij hj₂ hrec hitr₂ inv hinv
            · -- node i was tombstoned before being invoked: then i is never
              -- in the remaining trace, contradicting that it is invoked
              exfalso
              have htomb := (emitLoop_tomb a1 a2 a3 fuel (runActs cb.2 s) (id + 1)
                s₂ tr₂ vis₂ i hne₂ hWF₂ h' hrec).2
              obtain ⟨inv', hinv', hinv'i⟩ := hitr
              rcases List.mem_cons.1 hinv' with rfl | hinv'
              · exact hidi hinv'i
              · exact htomb inv' hinv' hinv'i

/-! ### Unfolding `emit_` -/

theorem begin_emitting_slots (s : SignalHolder) :
    (begin_emitting s).slots = s.slots := rfl

theorem begin_emitting_of_lt {s : SignalHolder} (h : s.emitting + 1 < UINT_MOD) :
    (begin_emitting s).emitting = s.emitting + 1 := by
  show (s.emitting + 1) % UINT_MOD = s.emitting + 1
  exact Nat.mod_eq_of_lt h

theorem end_emitting_of_one {s : SignalHolder} (h : s.emitting = 1) :
    end_emitting s =
      { s with emitting := 0, slots := s.slots.filter (fun x => x.2.isSome) } := by
  unfold end_emitting
  rw [h]
  rw [if_pos (by decide)]

theorem end_emitting_of_ge_two {s : SignalHolder} (h2 : 2 ≤ s.emitting)
    (hlt : s.emitting < UINT_MOD) :
    end_emitting s = { s with emitting := s.emitting - 1 } := by
  have hM : UINT_MOD = 4294967296 := rfl
  have hmod : (s.emitting + (UINT_MOD - 1)) % UINT_MOD = s.emitting - 1 := by
    have hsplit : s.emitting + (UINT_MOD - 1) = (s.emitting - 1) + UINT_MOD := by
      omega
    rw [hsplit, Nat.add_mod_right, Nat.mod_eq_of_lt (by omega)]
  unfold end_emitting
  rw [hmod, if_neg (by omega)]

theorem emit_elim {a1 a2 a3 fuel : Nat} {s s' : SignalHolder}
    {tr : List Invocation} {vis : List Nat}
    (h : emit_ a1 a2 a3 fuel s = some (s', tr, vis)) :
    ∃ s₂, emitLoop a1 a2 a3 fuel (begin_emitting s) 0 = some (s₂, tr, vis) ∧
      s' = end_emitting s₂ := by
  unfold emit_ at h
  split at h
  · cases h
  · rename_i s₂ tr₂ vis₂ hrec
    obtain ⟨rfl, rfl, rfl⟩ : end_emitting s₂ = s' ∧ tr₂ = tr ∧ vis₂ = vis := by
      simpa using h
    exact ⟨s₂, hrec, rfl⟩

theorem WF_begin_emitting {s : SignalHolder} (h : WF s) : WF (begin_emitting s) := h

theorem begin_emitting_ne_zero {s : SignalHolder} (h : s.emitting = 0) :
    (begin_emitting s).emitting ≠ 0 := by
  rw [begin_emitting_of_lt (by rw [h]; decide), h]
  decide

/-! ### Emission over action-free callbacks -/

theorem isPure_empty_acts {s : SignalHolder} (hp : isPure s = true) {id : Nat}
    {cb : Callback} (h : (id, some cb) ∈ s.slots) : cb.2 = [] := by
  have := List.all_eq_true.1 hp _ h
  simpa [List.isEmpty_iff] using this

theorem emitLoop_succ_none (a1 a2 a3 fuel : Nat) (s : SignalHolder) (pos : Nat)
    (h : s.slots.find? (fun e => decide (pos ≤ e.1)) = none) :
    emitLoop a1 a2 a3 (fuel + 1) s pos = some (s, [], []) := by
  rw [emitLoop_succ, h]

theorem emitLoop_succ_tomb (a1 a2 a3 fuel : Nat) (s : SignalHolder) (pos id : Nat)
    (h : s.slots.find? (fun e => decide (pos ≤ e.1)) = some (id, none)) :
    emitLoop a1 a2 a3 (fuel + 1) s pos =
      match emitLoop a1 a2 a3 fuel s (id + 1) with
      | none => none
      | some (s', tr, vis) => some (s', tr, id :: vis) := by
  rw [emitLoop_succ, h]

theorem emitLoop_succ_live (a1 a2 a3 fuel : Nat) (s : SignalHolder) (pos id : Nat)
    (cb : Callback)
    (h : s.slots.find? (fun e => decide (pos ≤ e.1)) = some (id, some cb)) :
    emitLoop a1 a2 a3 (fuel + 1) s pos =
      match emitLoop a1 a2 a3 fuel (runActs cb.2 s) (id + 1) with
      | none => none
      | some (s', tr, vis) => some (s', ⟨id, cb.1, a1, a2, a3⟩ :: tr, id :: vis) := by
  rw [emitLoop_succ, h]

/-- With action-free callbacks the loop leaves the holder unchanged, the
trace is exactly the still-connected callbacks in list order with the
emitted arguments, and the iterator stops at every node at or past `pos`. -/
theorem emitLoop_pure (a1 a2 a3 : Nat) (s : SignalHolder)
    (hp : isPure s = true) (hs : (s.slots.map Prod.fst).Chain' (· < ·)) :
    ∀ (fuel pos : Nat),
      (s.slots.filter (fun e => decide (pos ≤ e.1))).length + 1 ≤ fuel →
      emitLoop a1 a2 a3 fuel s pos =
        some (s,
          (s.slots.filter (fun e => decide (pos ≤ e.1))).filterMap
            (fun e => e.2.map (fun cb => ⟨e.1, cb.1, a1, a2, a3⟩)),
          (s.slots.filter (fun e => decide (pos ≤ e.1))).map Prod.fst) := by
  intro fuel
  induction fuel with
  | zero => intro pos h; omega
  | succ fuel ih =>
    intro pos hfuel
    cases hfind : s.slots.find? (fun e => decide (pos ≤ e.1)) with
    | none =>
      have hnil : s.slots.filter (fun e => decide (pos ≤ e.1)) = [] := by
        rw [List.filter_eq_nil_iff]
        intro e he
        have := find?_ge_none hfind e he
        simp only [decide_eq_true_eq]
        omega
      rw [emitLoop_succ_none a1 a2 a3 fuel s pos hfind, hnil]
      rfl
    | some entry =>
      obtain ⟨id, c⟩ := entry
      have hsplit := filter_ge_split hs hfind
      have hlen :
          (s.slots.filter (fun e => decide (id + 1 ≤ e.1))).length + 1 ≤ fuel := by
        rw [hsplit] at hfuel
        simpa using hfuel
      cases c with
      | none =>
        rw [emitLoop_succ_tomb a1 a2 a3 fuel s pos id hfind, ih (id + 1) hlen, hsplit]
        rfl
      | some cb =>
        have hmem : (id, some cb) ∈ s.slots := (find?_ge_sorted hs hfind).2.1
        have hempty : cb.2 = [] := isPure_empty_acts hp hmem
        have hrs : runActs cb.2 s = s := by rw [hempty]; rfl
        rw [emitLoop_succ_live a1 a2 a3 fuel s pos id cb hfind, hrs,
          ih (id + 1) hlen, hsplit]
        rfl

/-! ### Claim C1 -/

/-- C1: `connect` appends the new slot entry at the tail of the connection
list and returns its stable, fresh ID (the fresh ID names no existing node,
and looking it up after the connect yields the new callback).  A single
`emit_` on a holder at rest whose callbacks perform no actions invokes each
connected callback exactly once, with exactly the emitted arguments, in
connection (list) order: the invocation trace is literally the connected
(non-tombstoned) slots in list order, each paired with the emitted
arguments. -/
theorem claim_C1 (s : SignalHolder) (cb : Callback) (a1 a2 a3 : Nat)
    (hWF : WF s) (hp : isPure s = true) (h0 : s.emitting = 0) :
    ((connect s cb).1.slots = s.slots ++ [(s.nextId, some cb)] ∧
     (connect s cb).2 = s.nextId ∧
     (∀ e ∈ s.slots, e.1 ≠ s.nextId) ∧
     (connect s cb).1.slots.lookup s.nextId = some (some cb)) ∧
    emit_ a1 a2 a3 (s.slots.length + 1) s =
      some ({ s with slots := s.slots.filter (fun x => x.2.isSome) },
        s.slots.filterMap (fun e => e.2.map (fun c => ⟨e.1, c.1, a1, a2, a3⟩)),
        s.slots.map Prod.fst) := by
  constructor
  · refine ⟨rfl, rfl, ?_, ?_⟩
    · intro e he
      have := hWF.2 e he
      omega
    · show (s.slots ++ [(s.nextId, some cb)]).lookup s.nextId = some (some cb)
      rw [List.lookup_append]
      have hnone : s.slots.lookup s.nextId = none := by
        rw [List.lookup_eq_none_iff]
        intro p hp'
        have := hWF.2 p hp'
        simp only [bne_iff_ne, ne_eq]
        omega
      rw [hnone]
      simp [List.lookup_cons]
  · have hp' : isPure (begin_emitting s) = true := hp
    have hs' : ((begin_emitting s).slots.map Prod.fst).Chain' (· < ·) := hWF.1
    have hfull : (begin_emitting s).slots.filter (fun e => decide (0 ≤ e.1)) =
        (begin_emitting s).slots := by
      rw [List.filter_eq_self]
      intro a _
      simp
    have hfuel :
        ((begin_emitting s).slots.filter (fun e => decide (0 ≤ e.1))).length + 1 ≤
          s.slots.length + 1 := by
      rw [hfull]
      exact le_refl _
    have hloop := emitLoop_pure a1 a2 a3 (begin_emitting s) hp' hs'
      (s.slots.length + 1) 0 hfuel
    rw [hfull] at hloop
    have hb : (begin_emitting s).emitting = 1 := by
      rw [begin_emitting_of_lt (by rw [h0]; decide), h0]
    unfold emit_
    rw [hloop]
    show some (end_emitting (begin_emitting s), _, _) = _
    rw [end_emitting_of_one hb, ← h0]
    rfl

/-! ### Helpers for the remaining holder claims -/

theorem emitLoop_emitting (a1 a2 a3 : Nat) :
    ∀ (fuel : Nat) (s : SignalHolder) (pos : Nat) (s' : SignalHolder)
      (tr : List Invocation) (vis : List Nat),
      emitLoop a1 a2 a3 fuel s pos = some (s', tr, vis) →
      s'.emitting = s.emitting := by
  intro fuel
  induction fuel with
  | zero =>
    intro s pos s' tr vis hrun
    simp [emitLoop] at hrun
  | succ fuel ih =>
    intro s pos s' tr vis hrun
    rw [emitLoop_succ] at hrun
    split at hrun
    · obtain ⟨rfl, rfl, rfl⟩ : s = s' ∧ [] = tr ∧ [] = vis := by
        simpa using hrun
      rfl
    · split at hrun
      · cases hrun
      · rename_i s₂ tr₂ vis₂ hrec
        obtain ⟨rfl, rfl, rfl⟩ : s₂ = s' ∧ tr₂ = tr ∧ _ :: vis₂ = vis := by
          simpa using hrun
        exact ih _ _ _ _ _ hrec
    · rename_i id cb hfind
      split at hrun
      · cases hrun
      · rename_i s₂ tr₂ vis₂ hrec
        obtain ⟨rfl, rfl, rfl⟩ :
            s₂ = s' ∧ (⟨id, cb.1, a1, a2, a3⟩ : Invocation) :: tr₂ = tr ∧
              id :: vis₂ = vis := by
          simpa using hrun
        rw [ih _ _ _ _ _ hrec, runActs_emitting]

theorem lookup_filter_isSome_of_tomb {l : List (Nat × Option Callback)}
    (hnd : (l.map Prod.fst).Nodup) {i : Nat} (h : l.lookup i = some none) :
    (l.filter (fun x => x.2.isSome)).lookup i = none := by
  rw [List.lookup_eq_none_iff]
  intro p hp
  rw [List.mem_filter] at hp
  simp only [bne_iff_ne, ne_eq]
  intro hc
  have hpl : (i, p.2) ∈ l := by
    rw [hc]
    exact hp.1
  have := mem_lookup_of_nodup hnd hpl
  rw [h] at this
  have hp2 : p.2 = none := (Option.some.inj this).symm
  rw [hp2] at hp
  simp at hp

theorem WF_set_emitting {s : SignalHolder} (h : WF s) (n : Nat) :
    WF { s with emitting := n } := h

theorem WF_end_emitting {s : SignalHolder} (h : WF s) : WF (end_emitting s) := by
  unfold end_emitting
  split
  · constructor
    · rw [List.chain'_iff_pairwise]
      exact List.Pairwise.sublist ((List.filter_sublist _).map _)
        (List.chain'_iff_pairwise.1 h.1)
    · intro e he
      exact h.2 e (List.mem_of_mem_filter he)
  · exact WF_set_emitting h _

/-! ### Claim C2 -/

/-- C2: while the emission depth is nonzero, no callback action physically
erases a slot node — the existing node sequence is preserved entrywise with
contents at most tombstoned and fresh nodes appended at the tail
(`holderEvolve`); `end_emitting` performs the physical compaction exactly at
the depth transition 1 → 0 and at no other depth (at depth ≥ 2 it only
decrements); `begin_emitting` increments the depth and touches nothing else;
the emission loop never changes the depth; and a complete `emit_` returns
the depth to its entry value — so the depth always equals the number of
currently-nested `emit_` calls, and it is non-negative by type. -/
theorem claim_C2 (s t u : SignalHolder) (a : Act) (a1 a2 a3 fuel : Nat)
    (h1 : s.emitting ≠ 0) (h2 : t.emitting = 1) (h3 : 2 ≤ u.emitting)
    (h4 : u.emitting < UINT_MOD) (h5 : u.emitting + 1 < UINT_MOD) :
    holderEvolve s (runAct s a) ∧
    end_emitting t =
      { t with emitting := 0, slots := t.slots.filter (fun x => x.2.isSome) } ∧
    ((end_emitting u).slots = u.slots ∧
      (end_emitting u).emitting = u.emitting - 1) ∧
    ((begin_emitting u).slots = u.slots ∧
      (begin_emitting u).emitting = u.emitting + 1) ∧
    (∀ (pos : Nat) (s' : SignalHolder) (tr : List Invocation) (vis : List Nat),
      emitLoop a1 a2 a3 fuel s pos = some (s', tr, vis) →
      s'.emitting = s.emitting) ∧
    (∀ (s' : SignalHolder) (tr : List Invocation) (vis : List Nat),
      emit_ a1 a2 a3 fuel u = some (s', tr, vis) → s'.emitting = u.emitting) := by
  refine ⟨runAct_evolve s a h1, end_emitting_of_one h2, ?_, ?_, ?_, ?_⟩
  · rw [end_emitting_of_ge_two h3 h4]
    exact ⟨rfl, rfl⟩
  · exact ⟨rfl, begin_emitting_of_lt h5⟩
  · intro pos s' tr vis hrun
    exact emitLoop_emitting a1 a2 a3 fuel s pos s' tr vis hrun
  · intro s' tr vis hrun
    obtain ⟨s₂, hloop, hse⟩ := emit_elim hrun
    have hb : (begin_emitting u).emitting = u.emitting + 1 :=
      begin_emitting_of_lt h5
    have h₂ : s₂.emitting = u.emitting + 1 := by
      rw [emitLoop_emitting a1 a2 a3 fuel _ 0 s₂ tr vis hloop, hb]
    rw [hse, end_emitting_of_ge_two (by omega) (by omega)]
    rw [h₂]
    show u.emitting + 1 - 1 = u.emitting
    omega

/-! ### Claim C3 -/

/-- C3: disconnecting a live connection while an emission is in progress
tombstones the node in place — the list keeps its length and its node
sequence, the target node's content becomes empty, and every other node is
left exactly where it was with its content intact; disconnecting while no
emission is in progress physically erases exactly that node: the resulting
list is the original with the node filtered out, its length exactly one
smaller, the ID no longer present. -/
theorem claim_C3 (s : SignalHolder) (id : Nat) (cb : Callback)
    (hmem : (id, some cb) ∈ s.slots) (hnd : (s.slots.map Prod.fst).Nodup) :
    (s.emitting ≠ 0 →
      (disconnect s id).slots.length = s.slots.length ∧
      (disconnect s id).slots.map Prod.fst = s.slots.map Prod.fst ∧
      (disconnect s id).slots.lookup id = some none ∧
      (∀ e ∈ s.slots, e.1 ≠ id → e ∈ (disconnect s id).slots)) ∧
    (s.emitting = 0 →
      (disconnect s id).slots = s.slots.filter (fun e => !(e.1 == id)) ∧
      (disconnect s id).slots.length + 1 = s.slots.length ∧
      (disconnect s id).slots.lookup id = none) := by
  constructor
  · intro hne
    have hslots : (disconnect s id).slots =
        s.slots.map (fun e => if e.1 = id then (e.1, none) else e) := by
      unfold disconnect
      rw [if_pos hne]
    refine ⟨by rw [hslots, List.length_map], ?_, ?_, ?_⟩
    · rw [hslots]
      apply keys_map_tombstone
      intro e
      by_cases hid : e.1 = id <;> simp [hid]
    · rw [hslots, lookup_map_tombstone, if_pos rfl,
        mem_lookup_of_nodup hnd hmem]
      rfl
    · intro e he hne'
      rw [hslots]
      have : (if e.1 = id then (e.1, none) else e) = e := if_neg hne'
      rw [← this]
      exact List.mem_map_of_mem _ he
  · intro h0
    have hslots : (disconnect s id).slots = s.slots.eraseP (fun e => e.1 == id) := by
      unfold disconnect
      rw [if_neg (by omega)]
    have hfilter := eraseP_eq_filter_of_nodup s.slots id hnd
    refine ⟨by rw [hslots, hfilter], ?_, ?_⟩
    · rw [hslots, List.length_eraseP_of_mem hmem (by simp)]
      have : 1 ≤ s.slots.length := List.length_pos.2 (by
        intro hc
        rw [hc] at hmem
        cases hmem)
      omega
    · rw [hslots, hfilter, List.lookup_eq_none_iff]
      intro p hp
      rw [List.mem_filter] at hp
      have := hp.2
      simp only [Bool.not_eq_true', beq_eq_false_iff_ne, ne_eq] at this
      simp only [bne_iff_ne, ne_eq]
      omega

/-! ### Claim C5 -/

/-- C5: calling `clear` while an emission is active removes no node
physically — the list keeps its length and node sequence, every content
becomes empty — and once the emission depth returns to zero (the
`end_emitting` of the outermost emission) the list is empty; calling
`clear` outside any emission empties the list immediately. -/
theorem claim_C5 (s t : SignalHolder) (h1 : s.emitting ≠ 0) (h0 : t.emitting = 0) :
    ((clear s).slots.length = s.slots.length ∧
     (clear s).slots.map Prod.fst = s.slots.map Prod.fst ∧
     (∀ e ∈ (clear s).slots, e.2 = none)) ∧
    (s.emitting = 1 →
      (end_emitting (clear s)).slots = [] ∧
      (end_emitting (clear s)).emitting = 0) ∧
    (clear t).slots = [] := by
  have hslots : (clear s).slots = s.slots.map (fun e => (e.1, none)) := by
    unfold clear
    rw [if_pos h1]
  refine ⟨⟨by rw [hslots, List.length_map], ?_, ?_⟩, ?_, ?_⟩
  · rw [hslots]
    apply keys_map_tombstone
    intro e
    rfl
  · intro e he
    rw [hslots] at he
    obtain ⟨e₀, _, rfl⟩ := List.mem_map.1 he
    rfl
  · intro hone
    have hce : (clear s).emitting = 1 := by rw [clear_emitting, hone]
    rw [end_emitting_of_one hce]
    refine ⟨?_, rfl⟩
    show (clear s).slots.filter (fun x => x.2.isSome) = []
    rw [hslots, List.filter_eq_nil_iff]
    intro e he
    obtain ⟨e₀, _, rfl⟩ := List.mem_map.1 he
    simp
  · unfold clear
    rw [if_neg (by omega)]

/-! ### Claim C4 -/

/-- C4: within one emission the invocation trace is strictly increasing in
node identity, so no slot — in particular one that disconnects itself — is
ever invoked twice in the same emission's iteration.  A callback whose
actions disconnect its own connection ID is physically absent once the
emission completes and is never invoked in any subsequent emission from the
resulting state.  A callback that disconnects a different, not-yet-visited
slot (a connected slot with a larger ID, which the increasing iteration
reaches only later) prevents that slot from being invoked in the current
emission, whenever the disconnecting callback itself is invoked. -/
theorem claim_C4 (s s' : SignalHolder) (tr : List Invocation) (vis : List Nat)
    (a1 a2 a3 fuel i tag : Nat) (acts : List Act)
    (hWF : WF s) (h0 : s.emitting = 0)
    (hi : s.slots.lookup i = some (some (tag, acts)))
    (hrun : emit_ a1 a2 a3 fuel s = some (s', tr, vis)) :
    (tr.map Invocation.slotId).Chain' (· < ·) ∧
    (Act.disc i ∈ acts →
      s'.slots.lookup i = none ∧
      ∀ (b1 b2 b3 fuel' : Nat) (s'' : SignalHolder) (tr'' : List Invocation)
        (vis'' : List Nat),
        emit_ b1 b2 b3 fuel' s' = some (s'', tr'', vis'') →
        ∀ inv ∈ tr'', inv.slotId ≠ i) ∧
    (∀ (j : Nat) (cj : Option Callback), Act.disc j ∈ acts → i < j →
      s.slots.lookup j = some cj →
      (∃ inv ∈ tr, inv.slotId = i) →
      ∀ inv ∈ tr, inv.slotId ≠ j) := by
  obtain ⟨s₂, hloop, hse⟩ := emit_elim hrun
  have hne : (begin_emitting s).emitting ≠ 0 := begin_emitting_ne_zero h0
  have hWFb : WF (begin_emitting s) := hWF
  have hib : (begin_emitting s).slots.lookup i = some (some (tag, acts)) := hi
  obtain ⟨hev, hWF₂, -, -, hchain, -, -, -⟩ :=
    emitLoop_spec a1 a2 a3 fuel (begin_emitting s) 0 s₂ tr vis hne hWFb hloop
  have hilt : i < s.nextId := hWF.2 _ (lookup_mem hi)
  have hb1 : (begin_emitting s).emitting = 1 := by
    rw [begin_emitting_of_lt (by rw [h0]; decide), h0]
  have h₂1 : s₂.emitting = 1 := by rw [hev.1, hb1]
  have hend : end_emitting s₂ =
      { s₂ with emitting := 0, slots := s₂.slots.filter (fun x => x.2.isSome) } :=
    end_emitting_of_one h₂1
  refine ⟨hchain, ?_, ?_⟩
  · intro hd
    have htombed : s₂.slots.lookup i = some none :=
      emitLoop_selfdisc a1 a2 a3 fuel (begin_emitting s) 0 s₂ tr vis i tag acts
        hne hWFb hib hd (Nat.zero_le i) hloop
    have hgone : s'.slots.lookup i = none := by
      rw [hse, hend]
      exact lookup_filter_isSome_of_tomb (WF_nodup_keys hWF₂) htombed
    refine ⟨hgone, ?_⟩
    intro b1 b2 b3 fuel' s'' tr'' vis'' hrun'' inv hinv
    obtain ⟨s₃, hloop'', -⟩ := emit_elim hrun''
    have h0' : s'.emitting = 0 := by rw [hse, hend]
    have hne' : (begin_emitting s').emitting ≠ 0 := begin_emitting_ne_zero h0'
    have hWF' : WF s' := by
      rw [hse]
      exact WF_end_emitting hWF₂
    obtain ⟨-, -, -, -, -, -, htrmem'', -⟩ :=
      emitLoop_spec b1 b2 b3 fuel' (begin_emitting s') 0 s₃ tr'' vis'' hne'
        hWF' hloop''
    intro hc
    rcases htrmem'' inv hinv with hk | hk
    · obtain ⟨e₀, he₀, hfst⟩ := List.mem_map.1 hk
      have : s'.slots.lookup e₀.1 = some e₀.2 :=
        mem_lookup_of_nodup (WF_nodup_keys hWF') (by
          have he' : e₀ = (e₀.1, e₀.2) := rfl
          rw [← he']
          exact he₀)
      rw [hfst, hc, hgone] at this
      cases this
    · have hni : s.nextId ≤ s'.nextId := by
        rw [hse, hend]
        show s.nextId ≤ s₂.nextId
        exact hev.2.2.1
      have hbn : (begin_emitting s').nextId = s'.nextId := rfl
      rw [hc] at hk
      omega
  · intro j cj hd hij hj hitr
    exact emitLoop_otherdisc a1 a2 a3 fuel (begin_emitting s) 0 s₂ tr vis i tag
      acts j cj hne hWFb hib hd hij hj hloop hitr

/-! ### Claim C10 -/

/-- C10 (amended): a slot appended at the tail during an emission is always
reached by that emission's iteration — every node at or past the iterator
position that is present when the loop completes (nodes are never erased
mid-emission, so this includes every node appended during the emission) has
its position visited, and it is invoked with the emitted arguments whenever
its content has not been tombstoned by a disconnect or clear; in particular
a tail-append that is never disconnected during the emission is invoked
later in the same emission. -/
theorem claim_C10 (a1 a2 a3 fuel pos : Nat) (s s' : SignalHolder)
    (tr : List Invocation) (vis : List Nat)
    (hne : s.emitting ≠ 0) (hWF : WF s)
    (hrun : emitLoop a1 a2 a3 fuel s pos = some (s', tr, vis)) :
    ∀ e ∈ s'.slots, pos ≤ e.1 →
      e.1 ∈ vis ∧
      (∀ tag acts, e.2 = some (tag, acts) →
        (⟨e.1, tag, a1, a2, a3⟩ : Invocation) ∈ tr) := by
  obtain ⟨-, -, hvis, hinv, -, -, -, -⟩ :=
    emitLoop_spec a1 a2 a3 fuel s pos s' tr vis hne hWF hrun
  intro e he hpe
  exact ⟨hvis e he hpe, fun tag acts hc => hinv e he hpe tag acts hc⟩

/-- C10, counterexample to the claim as stated: in the holder below, the
callback at node 0 connects a new callback (tag 9) during the emission; the
callback at node 1 then disconnects the appended node (ID 2) before the
iterator reaches it.  The emission's iterator does reach node 2 (visited
list `[0, 1, 2]`), but the appended slot is never invoked: the trace
contains only nodes 0 and 1. -/
theorem claim_C10_cex :
    emit_ 5 6 7 10
        { slots := [(0, some (1, [Act.conn 9 []])), (1, some (2, [Act.disc 2]))],
          nextId := 2, trackers := [], emitting := 0 } =
      some ({ slots := [(0, some (1, [Act.conn 9 []])), (1, some (2, [Act.disc 2]))],
              nextId := 3, trackers := [], emitting := 0 },
            [⟨0, 1, 5, 6, 7⟩, ⟨1, 2, 5, 6, 7⟩], [0, 1, 2]) ∧
    ∀ inv ∈ ([⟨0, 1, 5, 6, 7⟩, ⟨1, 2, 5, 6, 7⟩] : List Invocation),
      inv.slotId ≠ 2 := by
  constructor
  · rfl
  · decide

/-! ### Tracker lemmas -/

theorem lookup_mem' {β : Type} : ∀ {l : List (Nat × β)} {id : Nat} {c : β},
    l.lookup id = some c → (id, c) ∈ l := by
  intro l
  induction l with
  | nil => intro id c h; simp at h
  | cons e rest ih =>
    intro id c h
    obtain ⟨k, c'⟩ := e
    rw [List.lookup_cons] at h
    cases hbeq : id == k with
    | true =>
      rw [hbeq] at h
      obtain rfl : c' = c := Option.some.inj h
      obtain rfl : id = k := by simpa using hbeq
      exact List.mem_cons_self _ _
    | false =>
      rw [hbeq] at h
      exact List.mem_cons_of_mem _ (ih h)

theorem mapInsert_of_lookup_some {k v existId : Nat} :
    ∀ {l : List (Nat × Nat)}, (l.map Prod.fst).Chain' (· < ·) →
      l.lookup k = some existId → mapInsert k v l = (l, false) := by
  intro l
  induction l with
  | nil => intro _ h; simp at h
  | cons e rest ih =>
    intro hs hlk
    obtain ⟨k', v'⟩ := e
    have hpw := List.chain'_iff_pairwise.1 hs
    rw [List.map_cons, List.pairwise_cons] at hpw
    by_cases hkk : k = k'
    · subst hkk
      show (if k < k then _ else if k = k then _ else _) = _
      rw [if_neg (lt_irrefl k), if_pos rfl]
    · have hbeq : (k == k') = false := by simp [hkk]
      rw [List.lookup_cons] at hlk
      rw [hbeq] at hlk
      have hmem : (k, existId) ∈ rest := lookup_mem' hlk
      have hgt : k' < k := hpw.1 k (List.mem_map_of_mem Prod.fst hmem)
      show (if k < k' then _ else if k = k' then _ else
        ((k', v') :: (mapInsert k v rest).1, (mapInsert k v rest).2)) = _
      rw [if_neg (by omega), if_neg hkk]
      have hs' : (rest.map Prod.fst).Chain' (· < ·) :=
        (List.chain'_cons'.1 (by simpa using hs)).2
      rw [ih hs' hlk]

theorem lookup_eraseP_self {β : Type} {k : Nat} :
    ∀ {l : List (Nat × β)}, (l.map Prod.fst).Nodup →
      (l.eraseP (fun e => e.1 == k)).lookup k = none := by
  intro l
  induction l with
  | nil => intro _; rfl
  | cons e rest ih =>
    intro hnd
    obtain ⟨k', v'⟩ := e
    rw [List.map_cons] at hnd
    rcases List.nodup_cons.1 hnd with ⟨hni, hnd'⟩
    by_cases hkk : k' = k
    · subst hkk
      rw [List.eraseP_cons_of_pos (by simp)]
      rw [List.lookup_eq_none_iff]
      intro p hp
      have : p.1 ∈ rest.map Prod.fst := List.mem_map_of_mem Prod.fst hp
      simp only [bne_iff_ne, ne_eq]
      intro hc
      rw [← hc] at this
      exact hni this
    · rw [List.eraseP_cons_of_neg (by simp [hkk])]
      have hbeq : (k == k') = false := by
        simp only [beq_eq_false_iff_ne, ne_eq]
        omega
      rw [List.lookup_cons]
      rw [hbeq]
      exact ih hnd'

theorem lookup_eraseP_ne {β : Type} {k k' : Nat} (hne : k' ≠ k) :
    ∀ (l : List (Nat × β)),
      (l.eraseP (fun e => e.1 == k)).lookup k' = l.lookup k' := by
  intro l
  induction l with
  | nil => rfl
  | cons e rest ih =>
    obtain ⟨k₀, v₀⟩ := e
    by_cases hk₀ : k₀ = k
    · subst hk₀
      rw [List.eraseP_cons_of_pos (by simp)]
      have hbeq : (k' == k₀) = false := by simp [hne]
      rw [List.lookup_cons]
      rw [hbeq]
    · rw [List.eraseP_cons_of_neg (by simp [hk₀])]
      rw [List.lookup_cons, List.lookup_cons]
      cases hbeq : k' == k₀
      · exact ih
      · rfl

theorem updateHolder_cons (k : Nat) (h : SignalHolder) (rest : HolderMap)
    (hid : Nat) (f : SignalHolder → SignalHolder) :
    updateHolder ((k, h) :: rest) hid f =
      (if k = hid then (k, f h) else (k, h)) :: updateHolder rest hid f := rfl

theorem lookup_updateHolder_self (hs : HolderMap) (hid : Nat)
    (f : SignalHolder → SignalHolder) :
    (updateHolder hs hid f).lookup hid = (hs.lookup hid).map f := by
  induction hs with
  | nil => rfl
  | cons e rest ih =>
    obtain ⟨k, h⟩ := e
    rw [updateHolder_cons]
    by_cases hk : k = hid
    · subst hk
      rw [if_pos rfl, List.lookup_cons_self, List.lookup_cons_self]
      rfl
    · have hbeq : (hid == k) = false := by
        simp only [beq_eq_false_iff_ne, ne_eq]
        omega
      rw [if_neg hk, List.lookup_cons, List.lookup_cons]
      rw [hbeq]
      exact ih

theorem lookup_updateHolder_ne (hs : HolderMap) (hid hid' : Nat)
    (f : SignalHolder → SignalHolder) (hne : hid' ≠ hid) :
    (updateHolder hs hid f).lookup hid' = hs.lookup hid' := by
  induction hs with
  | nil => rfl
  | cons e rest ih =>
    obtain ⟨k, h⟩ := e
    rw [updateHolder_cons]
    by_cases hk : k = hid
    · have hbeq : (hid' == k) = false := by
        simp only [beq_eq_false_iff_ne, ne_eq]
        omega
      rw [if_pos hk, List.lookup_cons, List.lookup_cons]
      rw [hbeq]
      exact ih
    · rw [if_neg hk, List.lookup_cons, List.lookup_cons]
      cases hbeq : hid' == k
      · exact ih
      · rfl

/-! ### Claim C6 -/

/-- C6 (amended): joining a signal for which the tracker already holds a
mapping entry is idempotent on the mapping: the map-insert fails so the
mapping is unchanged (hence still at most one live mapping per
(tracker, signal) pair), the pre-existing entry's ID is returned unchanged,
and the freshly made connection is immediately disconnected again.  When the
signal is not mid-emission the rollback physically erases the new slot, so
the connection list is exactly what it was (same length); mid-emission the
rollback only tombstones it (see the counterexample), with compaction
deferred to the end of the emission. -/
theorem claim_C6 (tid : Nat) (t : SignalTracker) (hid : Nat) (h : SignalHolder)
    (cb : Callback) (existId : Nat)
    (hsorted : (t.connections.map Prod.fst).Chain' (· < ·))
    (hlk : t.connections.lookup hid = some existId)
    (hWF : WF h) (h0 : h.emitting = 0) :
    (join tid t hid h cb).1.connections = t.connections ∧
    (join tid t hid h cb).2.2 = (hid, existId) ∧
    (join tid t hid h cb).2.1.slots = h.slots ∧
    (join tid t hid h cb).2.1.slots.length = h.slots.length ∧
    (join tid t hid h cb).2.1.trackers = setInsert tid h.trackers := by
  have hins := mapInsert_of_lookup_some hsorted hlk (v := (connect h cb).2)
  have hslots : (join tid t hid h cb).2.1.slots = h.slots := by
    show (connectTracker (if (mapInsert hid (connect h cb).2 t.connections).2
        then (connect h cb).1
        else disconnect (connect h cb).1 (connect h cb).2) tid).slots = h.slots
    rw [hins]
    show (disconnect (connect h cb).1 (connect h cb).2).slots = h.slots
    unfold disconnect
    rw [if_neg (by
      show ¬(connect h cb).1.emitting ≠ 0
      show ¬h.emitting ≠ 0
      omega)]
    show ((h.slots ++ [(h.nextId, some cb)]).eraseP fun e => e.1 == h.nextId)
      = h.slots
    rw [List.eraseP_append_right _ (by
      intro b hb
      have := hWF.2 b hb
      simp only [beq_iff_eq]
      omega)]
    rw [List.eraseP_cons_of_pos (by simp)]
    simp
  refine ⟨?_, ?_, hslots, by rw [hslots], ?_⟩
  · show (mapInsert hid (connect h cb).2 t.connections).1 = t.connections
    rw [hins]
  · show (hid, if (mapInsert hid (connect h cb).2 t.connections).2
      then (connect h cb).2
      else (t.connections.lookup hid).getD (connect h cb).2) = (hid, existId)
    rw [hins, hlk]
    rfl
  · show (connectTracker (if (mapInsert hid (connect h cb).2 t.connections).2
        then (connect h cb).1
        else disconnect (connect h cb).1 (connect h cb).2) tid).trackers
      = setInsert tid h.trackers
    rw [hins]
    show setInsert tid (disconnect (connect h cb).1 (connect h cb).2).trackers
      = setInsert tid h.trackers
    rw [disconnect_trackers]
    rfl

/-- C6, counterexample to the claim as stated: if the second `join` happens
while the signal is mid-emission (a callback of the very signal calling
`join` on its tracker), the rolled-back connection is only tombstoned, so
the connection-list length after the second join is 2, not the length 1 it
had after the first join; the mapping itself is still unchanged. -/
theorem claim_C6_cex :
    (join 0 { connections := [(0, 0)] } 0
        { slots := [(0, some (1, []))], nextId := 1, trackers := [0],
          emitting := 1 } (7, [])).2.1.slots =
      [(0, some (1, [])), (1, none)] ∧
    (join 0 { connections := [(0, 0)] } 0
        { slots := [(0, some (1, []))], nextId := 1, trackers := [0],
          emitting := 1 } (7, [])).2.1.slots.length = 2 ∧
    ({ slots := [(0, some (1, []))], nextId := 1, trackers := [0],
        emitting := 1 } : SignalHolder).slots.length = 1 ∧
    (join 0 { connections := [(0, 0)] } 0
        { slots := [(0, some (1, []))], nextId := 1, trackers := [0],
          emitting := 1 } (7, [])).1.connections = [(0, 0)] := by
  refine ⟨rfl, rfl, rfl, rfl⟩

/-! ### Claim C7 -/

/-- C7: `leave` copies the (signal, connection) pair out of the mapping,
erases the mapping entry, and only then calls disconnect: the tracker
component of the result is `trackerErase t hid` — fully determined before
the disconnect step and unaffected by it; a reentrant `leave` on the same ID
issued from within that very disconnect finds no mapping entry (the lookup
is already `none`) and is a complete no-op on both the tracker and the
holders; and the disconnect (and optional tracker unwatch) is applied
through the copied pair `(hid, connId)`. -/
theorem claim_C7 (tid tid' : Nat) (t : SignalTracker) (hs : HolderMap)
    (hid connId : Nat) (b : Bool)
    (hnd : (t.connections.map Prod.fst).Nodup)
    (hlk : t.connections.lookup hid = some connId) :
    (trackerErase t hid).connections.lookup hid = none ∧
    (∀ (hs' : HolderMap) (b' : Bool),
      leave tid' (trackerErase t hid) hs' hid b' = (trackerErase t hid, hs')) ∧
    leave tid t hs hid b =
      (trackerErase t hid,
        if b then
          updateHolder (updateHolder hs hid (fun h => disconnect h connId)) hid
            (fun h => disconnectTracker h tid)
        else updateHolder hs hid (fun h => disconnect h connId)) := by
  have herase : (trackerErase t hid).connections.lookup hid = none :=
    lookup_eraseP_self hnd
  refine ⟨herase, ?_, ?_⟩
  · intro hs' b'
    unfold leave
    rw [herase]
  · unfold leave
    rw [hlk]

/-! ### Claim C8 -/

theorem leave_head (tid hid₀ cid₀ : Nat) (rest : List (Nat × Nat)) (hs : HolderMap) :
    leave tid { connections := (hid₀, cid₀) :: rest } hs hid₀ true =
      ({ connections := rest },
       updateHolder (updateHolder hs hid₀ (fun h => disconnect h cid₀)) hid₀
         (fun h => disconnectTracker h tid)) := by
  have ht : trackerErase { connections := (hid₀, cid₀) :: rest } hid₀ =
      { connections := rest } := by
    unfold trackerErase
    rw [List.eraseP_cons_of_pos (by simp)]
  simp only [leave, List.lookup_cons_self]
  rw [ht, if_pos trivial]

theorem leaveAllAux_succ_cons (tid fuel hid₀ cid₀ : Nat)
    (rest : List (Nat × Nat)) (hs : HolderMap) :
    leaveAllAux tid (fuel + 1) { connections := (hid₀, cid₀) :: rest } hs =
      leaveAllAux tid fuel
        (leave tid { connections := (hid₀, cid₀) :: rest } hs hid₀ true).1
        (leave tid { connections := (hid₀, cid₀) :: rest } hs hid₀ true).2 := rfl

theorem leaveAllAux_spec (tid : Nat) :
    ∀ (conns : List (Nat × Nat)) (hs : HolderMap),
      (conns.map Prod.fst).Nodup →
      (leaveAllAux tid conns.length { connections := conns } hs).1.connections
        = [] ∧
      (∀ hid, conns.lookup hid = none →
        (leaveAllAux tid conns.length { connections := conns } hs).2.lookup hid
          = hs.lookup hid) ∧
      (∀ hid cid h, conns.lookup hid = some cid → hs.lookup hid = some h →
        (leaveAllAux tid conns.length { connections := conns } hs).2.lookup hid
          = some (disconnectTracker (disconnect h cid) tid)) := by
  intro conns
  induction conns with
  | nil =>
    intro hs _
    refine ⟨rfl, fun hid _ => rfl, fun hid cid h hc => ?_⟩
    simp at hc
  | cons e rest ih =>
    intro hs hnd
    obtain ⟨hid₀, cid₀⟩ := e
    rw [List.map_cons] at hnd
    rcases List.nodup_cons.1 hnd with ⟨hni, hnd'⟩
    have hstep : leaveAllAux tid ((hid₀, cid₀) :: rest).length
        { connections := (hid₀, cid₀) :: rest } hs =
        leaveAllAux tid rest.length { connections := rest }
          (updateHolder (updateHolder hs hid₀ (fun h => disconnect h cid₀)) hid₀
            (fun h => disconnectTracker h tid)) := by
      rw [List.length_cons, leaveAllAux_succ_cons, leave_head]
    obtain ⟨hempty, hnone, hsome⟩ := ih
      (updateHolder (updateHolder hs hid₀ (fun h => disconnect h cid₀)) hid₀
        (fun h => disconnectTracker h tid)) hnd'
    rw [hstep]
    refine ⟨hempty, ?_, ?_⟩
    · intro hid hlk
      have hne : hid ≠ hid₀ := by
        intro hc
        rw [hc, List.lookup_cons_self] at hlk
        cases hlk
      have hrest : rest.lookup hid = none := by
        have hbeq : (hid == hid₀) = false := by simp [hne]
        rw [List.lookup_cons] at hlk
        rw [hbeq] at hlk
        exact hlk
      rw [hnone hid hrest, lookup_updateHolder_ne _ _ _ _ hne,
        lookup_updateHolder_ne _ _ _ _ hne]
    · intro hid cid h hlk hh
      by_cases hne : hid = hid₀
      · subst hne
        rw [List.lookup_cons_self] at hlk
        obtain rfl : cid₀ = cid := Option.some.inj hlk
        have hrest : rest.lookup hid = none := by
          rw [List.lookup_eq_none_iff]
          intro p hp
          simp only [bne_iff_ne, ne_eq]
          intro hc
          have hpm : p.1 ∈ rest.map Prod.fst := List.mem_map_of_mem Prod.fst hp
          rw [← hc] at hpm
          exact hni hpm
        rw [hnone hid hrest, lookup_updateHolder_self, lookup_updateHolder_self,
          hh]
        rfl
      · have hbeq : (hid == hid₀) = false := by simp [hne]
        rw [List.lookup_cons] at hlk
        rw [hbeq] at hlk
        refine hsome hid cid h hlk ?_
        rw [lookup_updateHolder_ne _ _ _ _ hne, lookup_updateHolder_ne _ _ _ _ hne]
        exact hh

/-- C8: `leaveAll` — and the tracker destructor, which is defined as exactly
`leaveAll` — terminates on every tracker state in at most as many `leave`
steps as there are mapping entries, repeatedly leaving the first remaining
entry (with unwatch); afterwards the mapping is empty; every signal the
tracker held a connection on loses exactly one list entry (the map enforces
at most one connection per signal), and every other signal is completely
untouched. -/
theorem claim_C8 (tid : Nat) (t : SignalTracker) (hs : HolderMap)
    (hnd : (t.connections.map Prod.fst).Nodup)
    (hvalid : ∀ p ∈ t.connections, ∃ h, hs.lookup p.1 = some h ∧
      h.emitting = 0 ∧ ∃ c, h.slots.lookup p.2 = some c) :
    (destroyTracker tid t hs).1.connections = [] ∧
    (∀ hid, t.connections.lookup hid = none →
      (destroyTracker tid t hs).2.lookup hid = hs.lookup hid) ∧
    (∀ hid cid h, t.connections.lookup hid = some cid →
      hs.lookup hid = some h →
      ∃ h', (destroyTracker tid t hs).2.lookup hid = some h' ∧
        h'.slots.length + 1 = h.slots.length) := by
  obtain ⟨conns⟩ := t
  obtain ⟨hempty, hnone, hsome⟩ := leaveAllAux_spec tid conns hs hnd
  refine ⟨hempty, hnone, ?_⟩
  intro hid cid h hlk hh
  refine ⟨disconnectTracker (disconnect h cid) tid, hsome hid cid h hlk hh, ?_⟩
  obtain ⟨h₂, hh₂, hemit, c, hc⟩ := hvalid (hid, cid) (lookup_mem' hlk)
  have heq : h₂ = h := by
    rw [hh] at hh₂
    exact (Option.some.inj hh₂).symm
  rw [heq] at hemit hc
  show (disconnect h cid).slots.length + 1 = h.slots.length
  unfold disconnect
  rw [if_neg (by omega)]
  show (h.slots.eraseP fun e => e.1 == cid).length + 1 = h.slots.length
  rw [List.length_eraseP_of_mem (lookup_mem' hc) (by simp)]
  have : 1 ≤ h.slots.length := List.length_pos.2 (by
    intro hnil
    rw [hnil] at hc
    simp at hc)
  omega

/-! ### Claim C9 -/

/-- `leaveAllAux` only ever touches holders whose identity is a key of the
tracker's mapping. -/
theorem leaveAllAux_frame (tid hid : Nat) :
    ∀ (fuel : Nat) (t : SignalTracker) (hs : HolderMap),
      hid ∉ t.connections.map Prod.fst →
      (leaveAllAux tid fuel t hs).2.lookup hid = hs.lookup hid := by
  intro fuel
  induction fuel with
  | zero => intro t hs _; rfl
  | succ fuel ih =>
    intro t hs hni
    obtain ⟨conns⟩ := t
    cases conns with
    | nil => rfl
    | cons e rest =>
      obtain ⟨hid₀, cid₀⟩ := e
      rw [leaveAllAux_succ_cons, leave_head]
      rw [List.map_cons] at hni
      have hne : hid ≠ hid₀ := by
        intro hc
        exact hni (hc ▸ List.mem_cons_self _ _)
      have hni' : hid ∉ rest.map Prod.fst := by
        intro hc
        exact hni (List.mem_cons_of_mem _ hc)
      rw [ih { connections := rest } _ hni', lookup_updateHolder_ne _ _ _ _ hne,
        lookup_updateHolder_ne _ _ _ _ hne]

/-- C9: destroying a holder while trackers still watch it is defined
behavior: each tracker in the dying holder's watcher set is processed once
and its mapping entry for the holder is erased (trackers not in the watcher
set are untouched — by the watcher invariant they hold no entry for it
anyway), the holder itself disappears from the holder table while every
other holder is untouched, so after the destruction no tracker maps the dead
holder and a subsequent `leaveAll` on any tracker never touches the dead
holder's identity: its table entry stays absent. -/
theorem claim_C9 (hid : Nat) (hs : HolderMap) (ts : List (Nat × SignalTracker))
    (h : SignalHolder)
    (hlk : hs.lookup hid = some h)
    (hkeys : (hs.map Prod.fst).Nodup)
    (hwatch : ∀ p ∈ ts, p.2.connections.lookup hid ≠ none → p.1 ∈ h.trackers)
    (htnd : ∀ p ∈ ts, (p.2.connections.map Prod.fst).Nodup) :
    (destroyHolder hid hs ts).1.lookup hid = none ∧
    (∀ hid', hid' ≠ hid →
      (destroyHolder hid hs ts).1.lookup hid' = hs.lookup hid') ∧
    (∀ p ∈ (destroyHolder hid hs ts).2, p.2.connections.lookup hid = none) ∧
    (∀ p ∈ ts, p.1 ∉ h.trackers → p ∈ (destroyHolder hid hs ts).2) ∧
    (∀ p ∈ (destroyHolder hid hs ts).2, ∀ tid,
      (leaveAll tid p.2 (destroyHolder hid hs ts).1).2.lookup hid = none) := by
  have hd : destroyHolder hid hs ts =
      (hs.eraseP (fun e => e.1 == hid),
       ts.map (fun e =>
         if h.trackers.contains e.1 then (e.1, trackerErase e.2 hid) else e)) := by
    unfold destroyHolder
    rw [hlk]
  have h1 : (destroyHolder hid hs ts).1.lookup hid = none := by
    rw [hd]
    exact lookup_eraseP_self hkeys
  have h3 : ∀ p ∈ (destroyHolder hid hs ts).2,
      p.2.connections.lookup hid = none := by
    rw [hd]
    intro p hp
    obtain ⟨e, he, rfl⟩ := List.mem_map.1 hp
    by_cases hw : h.trackers.contains e.1
    · rw [if_pos hw]
      exact lookup_eraseP_self (htnd e he)
    · rw [if_neg hw]
      by_cases hl : e.2.connections.lookup hid = none
      · exact hl
      · exfalso
        have := hwatch e he hl
        rw [List.contains_eq_any_beq] at hw
        apply hw
        rw [List.any_eq_true]
        exact ⟨e.1, this, by simp⟩
  refine ⟨h1, ?_, h3, ?_, ?_⟩
  · intro hid' hne
    rw [hd]
    exact lookup_eraseP_ne hne hs
  · intro p hp hnw
    rw [hd]
    have : (if h.trackers.contains p.1 then (p.1, trackerErase p.2 hid) else p)
        = p := by
      rw [if_neg (by
        intro hc
        rw [List.contains_eq_any_beq, List.any_eq_true] at hc
        obtain ⟨x, hx, hbx⟩ := hc
        have hpx : p.1 = x := by simpa using hbx
        rw [hpx] at hnw
        exact hnw hx)]
    rw [← this]
    exact List.mem_map_of_mem _ hp
  · intro p hp tid
    have hni : hid ∉ p.2.connections.map Prod.fst := by
      intro hc
      obtain ⟨e₀, he₀, hfst⟩ := List.mem_map.1 hc
      have := h3 p hp
      rw [List.lookup_eq_none_iff] at this
      have := this e₀ he₀
      simp only [bne_iff_ne, ne_eq] at this
      exact this hfst.symm
    show (leaveAllAux tid p.2.connections.length p.2
      (destroyHolder hid hs ts).1).2.lookup hid = none
    rw [leaveAllAux_frame tid hid _ _ _ hni]
    exact h1

/-! ### Witnesses -/

/-- Witness for C1: two action-free callbacks, connected then emitted. -/
theorem claim_C1_wit :
    (WF exPure ∧ isPure exPure = true ∧ exPure.emitting = 0) ∧
    emit_ 10 20 30 3 exPure =
      some (exPure, [⟨0, 5, 10, 20, 30⟩, ⟨1, 6, 10, 20, 30⟩], [0, 1]) :=
  ⟨⟨WFb_sound rfl, rfl, rfl⟩,
    (claim_C1 exPure (7, []) 10 20 30 (WFb_sound rfl) rfl rfl).2⟩

/-- Witness for C2 at depth 1 (tombstoning disconnect) and at nesting
depth 2 (an `emit_` that returns the depth to 2). -/
theorem claim_C2_wit :
    (exEmit1.emitting ≠ 0 ∧ exEmit1.emitting = 1 ∧ 2 ≤ exNested.emitting ∧
      exNested.emitting < UINT_MOD ∧ exNested.emitting + 1 < UINT_MOD) ∧
    holderEvolve exEmit1 (runAct exEmit1 (Act.disc 0)) ∧
    emit_ 4 5 6 4 exNested = some (exNested, [⟨0, 1, 4, 5, 6⟩], [0, 1]) ∧
    exNested.emitting = exNested.emitting := by
  have happ := claim_C2 exEmit1 exEmit1 exNested (Act.disc 0) 4 5 6 4
    (by decide) rfl (by decide) (by decide) (by decide)
  exact ⟨⟨by decide, rfl, by decide, by decide, by decide⟩, happ.1, rfl,
    happ.2.2.2.2.2 exNested [⟨0, 1, 4, 5, 6⟩] [0, 1] rfl⟩

/-- Witness for C3: tombstoning disconnect mid-emission and physical erase
at rest, on concrete holders. -/
theorem claim_C3_wit :
    ((0, some ((5 : Nat), ([] : List Act))) ∈ exTomb.slots ∧
      (exTomb.slots.map Prod.fst).Nodup ∧ exTomb.emitting ≠ 0 ∧
      (0, some ((5 : Nat), ([] : List Act))) ∈ exPure.slots ∧
      exPure.emitting = 0) ∧
    ((disconnect exTomb 0).slots.length = exTomb.slots.length ∧
      (disconnect exTomb 0).slots.lookup 0 = some none) ∧
    ((disconnect exPure 0).slots = exPure.slots.filter (fun e => !(e.1 == 0)) ∧
      (disconnect exPure 0).slots.length + 1 = exPure.slots.length) := by
  have h1 := claim_C3 exTomb 0 (5, []) (List.mem_cons_self _ _) (by decide)
  have h2 := claim_C3 exPure 0 (5, []) (List.mem_cons_self _ _) (by decide)
  exact ⟨⟨List.mem_cons_self _ _, by decide, by decide,
      List.mem_cons_self _ _, rfl⟩,
    ⟨(h1.1 (by decide)).1, (h1.1 (by decide)).2.2.1⟩,
    ⟨(h2.2 rfl).1, (h2.2 rfl).2.1⟩⟩

/-- Witness for C4: the specification's A, B, C example — B disconnects
itself and C during the first emission; the first emission invokes A then B
only, B and C are gone afterwards, and a second emission invokes only A. -/
theorem claim_C4_wit :
    (WF exABC ∧ exABC.emitting = 0 ∧
      exABC.slots.lookup 1 = some (some (2, [Act.disc 1, Act.disc 2])) ∧
      emit_ 7 8 9 10 exABC =
        some (exABCres, [⟨0, 1, 7, 8, 9⟩, ⟨1, 2, 7, 8, 9⟩], [0, 1, 2])) ∧
    (([⟨0, 1, 7, 8, 9⟩, ⟨1, 2, 7, 8, 9⟩] : List Invocation).map
      Invocation.slotId).Chain' (· < ·) ∧
    exABCres.slots.lookup 1 = none ∧
    (∀ inv ∈ ([⟨0, 1, 7, 8, 9⟩] : List Invocation), inv.slotId ≠ 1) ∧
    (∀ inv ∈ ([⟨0, 1, 7, 8, 9⟩, ⟨1, 2, 7, 8, 9⟩] : List Invocation),
      inv.slotId ≠ 2) := by
  have happ := claim_C4 exABC exABCres [⟨0, 1, 7, 8, 9⟩, ⟨1, 2, 7, 8, 9⟩]
    [0, 1, 2] 7 8 9 10 1 2 [Act.disc 1, Act.disc 2] (WFb_sound rfl) rfl rfl rfl
  have hself := happ.2.1 (List.mem_cons_self _ _)
  refine ⟨⟨WFb_sound rfl, rfl, rfl, rfl⟩, happ.1, hself.1, ?_, ?_⟩
  · exact hself.2 7 8 9 3 exABCres [⟨0, 1, 7, 8, 9⟩] [0] rfl
  · exact happ.2.2 2 (some (3, []))
      (List.mem_cons_of_mem _ (List.mem_cons_self _ _)) (by decide) rfl
      ⟨⟨1, 2, 7, 8, 9⟩, List.mem_cons_of_mem _ (List.mem_cons_self _ _), rfl⟩

/-- Witness for C5: `clear` mid-emission tombstones everything and the list
empties at depth 0; `clear` at rest empties immediately. -/
theorem claim_C5_wit :
    (exTomb.emitting ≠ 0 ∧ exPure.emitting = 0 ∧ exTomb.emitting = 1) ∧
    (clear exTomb).slots.length = exTomb.slots.length ∧
    (∀ e ∈ (clear exTomb).slots, e.2 = none) ∧
    (end_emitting (clear exTomb)).slots = [] ∧
    (clear exPure).slots = [] := by
  have happ := claim_C5 exTomb exPure (by decide) rfl
  exact ⟨⟨by decide, rfl, rfl⟩, happ.1.1, happ.1.2.2, (happ.2.1 rfl).1,
    happ.2.2⟩

/-- Witness for C6 (amended): a second `join` on an already-joined signal at
rest is fully rolled back. -/
theorem claim_C6_wit :
    ((({ connections := [(0, 0)] } : SignalTracker).connections.map
        Prod.fst).Chain' (· < ·) ∧
      ({ connections := [(0, 0)] } : SignalTracker).connections.lookup 0 =
        some 0 ∧
      WF exHA ∧ exHA.emitting = 0) ∧
    (join 1 { connections := [(0, 0)] } 0 exHA (7, [])).1.connections =
      [(0, 0)] ∧
    (join 1 { connections := [(0, 0)] } 0 exHA (7, [])).2.2 = (0, 0) ∧
    (join 1 { connections := [(0, 0)] } 0 exHA (7, [])).2.1.slots =
      exHA.slots := by
  have happ := claim_C6 1 { connections := [(0, 0)] } 0 exHA (7, []) 0
    (chainLt_sound _ rfl) rfl (WFb_sound rfl) rfl
  exact ⟨⟨chainLt_sound _ rfl, rfl, WFb_sound rfl, rfl⟩, happ.1, happ.2.1,
    happ.2.2.1⟩

/-- Witness for C7: leaving holder 0 on a two-entry tracker. -/
theorem claim_C7_wit :
    ((exT8.connections.map Prod.fst).Nodup ∧
      exT8.connections.lookup 0 = some 0) ∧
    (trackerErase exT8 0).connections.lookup 0 = none ∧
    leave 3 (trackerErase exT8 0) exHS8 0 true = (trackerErase exT8 0, exHS8) ∧
    leave 2 exT8 exHS8 0 true =
      (trackerErase exT8 0,
        updateHolder (updateHolder exHS8 0 (fun h => disconnect h 0)) 0
          (fun h => disconnectTracker h 2)) := by
  have happ := claim_C7 2 3 exT8 exHS8 0 0 true (by decide) rfl
  exact ⟨⟨by decide, rfl⟩, happ.1, happ.2.1 exHS8 true, happ.2.2⟩

/-- Witness for C8: destroying a tracker holding one connection on each of
two signals removes exactly one slot from each. -/
theorem claim_C8_wit :
    ((exT8.connections.map Prod.fst).Nodup ∧ exHS8.lookup 0 = some exHA ∧
      exHS8.lookup 1 = some exHB) ∧
    (destroyTracker 4 exT8 exHS8).1.connections = [] ∧
    (∃ h', (destroyTracker 4 exT8 exHS8).2.lookup 0 = some h' ∧
      h'.slots.length + 1 = exHA.slots.length) ∧
    (∃ h', (destroyTracker 4 exT8 exHS8).2.lookup 1 = some h' ∧
      h'.slots.length + 1 = exHB.slots.length) := by
  have hvalid : ∀ p ∈ exT8.connections, ∃ h, exHS8.lookup p.1 = some h ∧
      h.emitting = 0 ∧ ∃ c, h.slots.lookup p.2 = some c := by
    intro p hp
    rcases List.mem_cons.1 hp with rfl | hp
    · exact ⟨exHA, rfl, rfl, some (1, []), rfl⟩
    rcases List.mem_cons.1 hp with rfl | hp
    · exact ⟨exHB, rfl, rfl, some (3, []), rfl⟩
    · cases hp
  have happ := claim_C8 4 exT8 exHS8 (by decide) hvalid
  exact ⟨⟨by decide, rfl, rfl⟩, happ.1, happ.2.2 0 0 exHA rfl rfl,
    happ.2.2 1 1 exHB rfl rfl⟩

/-- Witness for C9: destroying holder 0 while tracker 0 watches it; tracker
1 holds no connection on it.  Afterwards no tracker maps holder 0 and a
`leaveAll` on any of them never touches it. -/
theorem claim_C9_wit :
    (exHS8.lookup 0 = some exHA ∧ (exHS8.map Prod.fst).Nodup) ∧
    (destroyHolder 0 exHS8
      [(0, exT8), (1, { connections := [(1, 0)] })]).1.lookup 0 = none ∧
    (∀ p ∈ (destroyHolder 0 exHS8
        [(0, exT8), (1, { connections := [(1, 0)] })]).2,
      p.2.connections.lookup 0 = none) ∧
    (∀ p ∈ (destroyHolder 0 exHS8
        [(0, exT8), (1, { connections := [(1, 0)] })]).2,
      ∀ tid, (leaveAll tid p.2 (destroyHolder 0 exHS8
        [(0, exT8), (1, { connections := [(1, 0)] })]).1).2.lookup 0 =
        none) := by
  have hwatch : ∀ p ∈ [((0 : Nat), exT8),
      (1, ({ connections := [(1, 0)] } : SignalTracker))],
      p.2.connections.lookup 0 ≠ none → p.1 ∈ exHA.trackers := by
    intro p hp
    rcases List.mem_cons.1 hp with rfl | hp
    · intro _
      exact List.mem_cons_self _ _
    rcases List.mem_cons.1 hp with rfl | hp
    · intro hc
      exact absurd rfl hc
    · cases hp
  have htnd : ∀ p ∈ [((0 : Nat), exT8),
      (1, ({ connections := [(1, 0)] } : SignalTracker))],
      (p.2.connections.map Prod.fst).Nodup := by
    intro p hp
    rcases List.mem_cons.1 hp with rfl | hp
    · exact (by decide)
    rcases List.mem_cons.1 hp with rfl | hp
    · exact (by decide)
    · cases hp
  have happ := claim_C9 0 exHS8 [(0, exT8), (1, { connections := [(1, 0)] })]
    exHA rfl (by decide) hwatch htnd
  exact ⟨⟨rfl, by decide⟩, happ.1, happ.2.2.1, happ.2.2.2.2⟩

/-- Witness for C10 (amended): a callback connects a new callback (tag 9)
during the emission; the new slot's position is visited and, being never
disconnected, it is invoked later in the same emission with the emitted
arguments. -/
theorem claim_C10_wit :
    (exConn.emitting ≠ 0 ∧ WF exConn ∧
      emitLoop 5 6 7 10 exConn 0 =
        some (exConnRes, [⟨0, 1, 5, 6, 7⟩, ⟨1, 9, 5, 6, 7⟩], [0, 1])) ∧
    ((1 : Nat) ∈ ([0, 1] : List Nat) ∧
      ∀ tag acts,
        (some ((9 : Nat), ([] : List Act)) : Option Callback) =
          some (tag, acts) →
        (⟨1, tag, 5, 6, 7⟩ : Invocation) ∈
          ([⟨0, 1, 5, 6, 7⟩, ⟨1, 9, 5, 6, 7⟩] : List Invocation)) := by
  have happ := claim_C10 5 6 7 10 0 exConn exConnRes
    [⟨0, 1, 5, 6, 7⟩, ⟨1, 9, 5, 6, 7⟩] [0, 1] (by decide) (WFb_sound rfl) rfl
  have hmem : ((1 : Nat),
      (some ((9 : Nat), ([] : List Act)) : Option Callback)) ∈
      exConnRes.slots :=
    List.mem_cons_of_mem _ (List.mem_cons_self _ _)
  have h := happ (1, some (9, [])) hmem (by decide)
  exact ⟨⟨by decide, WFb_sound rfl, rfl⟩, h.1, h.2⟩

end FluxSignal
